import Mathlib

/-!
Verification of the word-guessing game (`word_guessing_game.py`).

Strings are modelled as `List Char`.  Python exceptions are modelled with
`Except`: an `IndexError` raised by an out-of-range subscript, the
`ValueError` raised by `check_word_vs_guess_and_hints` for a malformed hint
character (the spec's `InvalidHint`), and the auto-solver's empty-candidate
`Exception` (the spec's `ExhaustedCandidates`) become constructors of `Err`.
The dictionary loader has its own error type `LoadErr` covering the
`ValueError` for an empty word list (the spec's `EmptyDictionary`) and
`WrongWordLengthException`.

The Python `for index, letter in enumerate(s)` loops iterate over a snapshot
of `s` taken at loop entry while rebinding the loop variable inside the
body; they are embedded as recursions over `s.enum` that thread the mutated
strings as explicit state (`mcLoop1`, `mcLoop2`, `cwLoop1`, `cwLoop2`).
Structural variants (`mcExact`, `mcPresent`, `cwExact`, `cwPresent`) are
proved equal to those loops and carry the main proofs.
-/

/-- Errors raised by the matching engine / constraint filter / solver:
`indexError` models a Python `IndexError` from an out-of-range subscript,
`invalidHint c` the `ValueError` raised for a hint character `c` outside
`{'!', '?', '_'}`, and `exhaustedCandidates` the exception raised by
`game_routine` when the reduced candidate list becomes empty. -/
inductive Err where
  | indexError
  | invalidHint (c : Char)
  | exhaustedCandidates
deriving DecidableEq

/-- Errors raised by `read_file_as_words_list` in `check_input` mode:
`emptyDictionary` models `ValueError("input file must not be empty")` and
`wrongWordLength w actual expected` models `WrongWordLengthException`
naming the offending word and its actual vs. expected length. -/
inductive LoadErr where
  | emptyDictionary
  | wrongWordLength (w : List Char) (actual expected : Nat)
deriving DecidableEq

/-- `replace_char(replacement, in_str, index)`:
`in_str[:index] + replacement + in_str[index + 1:]`. -/
def replace_char (replacement : Char) (in_str : List Char) (index : Nat) : List Char :=
  in_str.take index ++ [replacement] ++ in_str.drop (index + 1)

/-- Python `s.replace(old, new, 1)` for a single-character pattern:
replace the first occurrence of `old` by `new` (no change if absent). -/
def replaceFirst (old new : Char) : List Char → List Char
  | [] => []
  | x :: xs => if x = old then new :: xs else x :: replaceFirst old new xs

/-- First loop of `match_check` ("find exact matches first"): iterate over
`enumerate(guess)` (a snapshot), comparing `letter` with `correct[index]`
(an out-of-range read raises `IndexError`); on a match overwrite
`guess[index]` with `'!'` and `correct[index]` with `'_'`. -/
def mcLoop1 : List (Nat × Char) → List Char → List Char →
    Except Err (List Char × List Char)
  | [], guess, correct => .ok (guess, correct)
  | (index, letter) :: rest, guess, correct =>
    match correct[index]? with
    | none => .error .indexError
    | some ci =>
      if letter = ci then
        mcLoop1 rest (replace_char '!' guess index) (replace_char '_' correct index)
      else
        mcLoop1 rest guess correct

/-- Second loop of `match_check` ("find remaining letters at the wrong
position and not included letters"): iterate over a snapshot of the
pass-1 guess; if `letter in correct` mark `'?'` and wipe
`correct[correct.index(letter)]`, else if `letter != '!'` mark `'_'`. -/
def mcLoop2 : List (Nat × Char) → List Char → List Char → List Char × List Char
  | [], guess, correct => (guess, correct)
  | (index, letter) :: rest, guess, correct =>
    if letter ∈ correct then
      mcLoop2 rest (replace_char '?' guess index)
        (replace_char '_' correct (List.indexOf letter correct))
    else if letter ≠ '!' then
      mcLoop2 rest (replace_char '_' guess index) correct
    else
      mcLoop2 rest guess correct

/-- `match_check(guess, correct)`: the feedback engine.  Returns
`(isFullMatch, hint)`; an out-of-range read of `correct` raises
`IndexError` (there is no explicit length check in the source). -/
def match_check (guess correct : List Char) : Except Err (Bool × List Char) :=
  match mcLoop1 guess.enum guess correct with
  | .error e => .error e
  | .ok (guess1, correct1) =>
    if guess1.all (fun l => l == '!') then
      .ok (true, guess1)
    else
      .ok (false, (mcLoop2 guess1.enum guess1 correct1).1)

/-- Structural form of `mcLoop1`: walk `guess` and `correct` in parallel,
marking matches `'!'`/`'_'` pointwise; `IndexError` exactly when `guess`
is longer than `correct`. -/
def mcExact : List Char → List Char → Except Err (List Char × List Char)
  | [], correct => .ok ([], correct)
  | _ :: _, [] => .error .indexError
  | l :: gs, c :: cs =>
    if l = c then
      Except.map (fun p => ('!' :: p.1, '_' :: p.2)) (mcExact gs cs)
    else
      Except.map (fun p => (l :: p.1, c :: p.2)) (mcExact gs cs)

/-- Structural form of `mcLoop2`: produce the hint characters head-first
while threading the scratch `correct` (consuming the first occurrence of a
claimed letter). -/
def mcPresent : List Char → List Char → List Char × List Char
  | [], correct => ([], correct)
  | l :: gs, correct =>
    if l ∈ correct then
      let p := mcPresent gs (replaceFirst l '_' correct)
      ('?' :: p.1, p.2)
    else if l ≠ '!' then
      let p := mcPresent gs correct
      ('_' :: p.1, p.2)
    else
      let p := mcPresent gs correct
      (l :: p.1, p.2)

/-- First loop of `check_word_vs_guess_and_hints` ("first iteration for
definite cases"): validate each hint character (raising `InvalidHint`
otherwise), require `guess[ind] == word[ind]` at `'!'` positions (consuming
`word[ind]` with `'*'`), and reject `'?'` positions where
`guess[ind] == word[ind]`.  `.ok none` models `return False`. -/
def cwLoop1 : List (Nat × Char) → List Char → List Char →
    Except Err (Option (List Char))
  | [], _, word => .ok (some word)
  | (ind, hint) :: rest, guess, word =>
    if hint ∉ (['!', '?', '_'] : List Char) then
      .error (.invalidHint hint)
    else if hint = '!' then
      match guess[ind]?, word[ind]? with
      | some gi, some wi =>
        if gi = wi then cwLoop1 rest guess (replace_char '*' word ind)
        else .ok none
      | _, _ => .error .indexError
    else if hint = '?' then
      match guess[ind]?, word[ind]? with
      | some gi, some wi =>
        if gi = wi then .ok none else cwLoop1 rest guess word
      | _, _ => .error .indexError
    else
      cwLoop1 rest guess word

/-- Second loop of `check_word_vs_guess_and_hints` ("second iteration for
more special cases"): at `'?'` positions the letter must still occur in the
(consumed) word, claiming one occurrence; at `'_'` positions it must not.
`.ok none` models `return False`. -/
def cwLoop2 : List (Nat × Char) → List Char → List Char →
    Except Err (Option (List Char))
  | [], _, word => .ok (some word)
  | (ind, hint) :: rest, guess, word =>
    if hint = '?' then
      match guess[ind]? with
      | none => .error .indexError
      | some gi =>
        if gi ∈ word then cwLoop2 rest guess (replaceFirst gi '*' word)
        else .ok none
    else if hint = '_' then
      match guess[ind]? with
      | none => .error .indexError
      | some gi => if gi ∈ word then .ok none else cwLoop2 rest guess word
    else
      cwLoop2 rest guess word

/-- `check_word_vs_guess_and_hints(word, guess, hints)`: the constraint
filter; `True`/`False` become `.ok true`/`.ok false`. -/
def check_word_vs_guess_and_hints (word guess hints : List Char) : Except Err Bool :=
  match cwLoop1 hints.enum guess word with
  | .error e => .error e
  | .ok none => .ok false
  | .ok (some word1) =>
    match cwLoop2 hints.enum guess word1 with
    | .error e => .error e
    | .ok none => .ok false
    | .ok (some _) => .ok true

/-- Structural form of `cwLoop1`: walk `hints`, `guess` and `word` in
parallel.  It agrees with `cwLoop1` whenever `hints` is no longer than
`guess` and `word` (the only regime the theorems use). -/
def cwExact : List Char → List Char → List Char → Except Err (Option (List Char))
  | [], _, word => .ok (some word)
  | hint :: hs, guess, word =>
    if hint ∉ (['!', '?', '_'] : List Char) then
      .error (.invalidHint hint)
    else
      match guess, word with
      | g0 :: gs, w0 :: ws =>
        if hint = '!' then
          if g0 = w0 then
            Except.map (Option.map (fun w => '*' :: w)) (cwExact hs gs ws)
          else .ok none
        else if hint = '?' then
          if g0 = w0 then .ok none
          else Except.map (Option.map (fun w => w0 :: w)) (cwExact hs gs ws)
        else
          Except.map (Option.map (fun w => w0 :: w)) (cwExact hs gs ws)
      | _, _ => .error .indexError

/-- Structural form of `cwLoop2`: walk `hints` and `guess` in parallel,
threading the whole (consumed) word.  Agrees with `cwLoop2` whenever
`hints` is no longer than `guess`. -/
def cwPresent : List Char → List Char → List Char → Except Err (Option (List Char))
  | [], _, word => .ok (some word)
  | hint :: hs, guess, word =>
    match guess with
    | [] => .error .indexError
    | g0 :: gs =>
      if hint = '?' then
        if g0 ∈ word then cwPresent hs gs (replaceFirst g0 '*' word)
        else .ok none
      else if hint = '_' then
        if g0 ∈ word then .ok none else cwPresent hs gs word
      else
        cwPresent hs gs word

/-- `reduce_list(in_list, guess, hints)`: the Python list comprehension
`[w for w in in_list if check_word_vs_guess_and_hints(w, guess, hints)]`;
the first exception raised by the filter propagates. -/
def reduce_list (in_list : List (List Char)) (guess hints : List Char) :
    Except Err (List (List Char)) :=
  match in_list with
  | [] => .ok []
  | w :: rest =>
    match check_word_vs_guess_and_hints w guess hints with
    | .error e => .error e
    | .ok true => Except.map (fun ws => w :: ws) (reduce_list rest guess hints)
    | .ok false => reduce_list rest guess hints

/-- Boolean form of "`check_word_vs_guess_and_hints` returns `True`". -/
def passesCheck (guess hints : List Char) (w : List Char) : Bool :=
  match check_word_vs_guess_and_hints w guess hints with
  | .ok true => true
  | _ => false

/-- Characters Python's `str.strip()` removes. -/
def isPySpace (c : Char) : Bool :=
  c = ' ' || c = '\t' || c = '\n' || c = '\r' || c = '\x0b' || c = '\x0c'

/-- Python `str.strip()`: drop leading and trailing whitespace. -/
def pyStrip (s : List Char) : List Char :=
  ((s.dropWhile isPySpace).reverse.dropWhile isPySpace).reverse

/-- Python `str.upper()` (ASCII letters, the only case the dictionary
model exercises). -/
def upperStr (s : List Char) : List Char :=
  s.map Char.toUpper

/-- The `check_input` list comprehension of `read_file_as_words_list`:
`[w.strip().upper() for w in f if (not w.startswith(comment_char) and w.strip())]`.
Note the comment test runs on the raw, unstripped line. -/
def surviving_words (comment_char : List Char) (lines : List (List Char)) :
    List (List Char) :=
  (lines.filter (fun w => !(comment_char.isPrefixOf w) && !(pyStrip w).isEmpty)).map
    (fun w => upperStr (pyStrip w))

/-- `read_file_as_words_list(file, check_input, comment_char)` with the
file contents given as a list of raw lines (each possibly carrying its
trailing newline); the `sys.argv` fallback for the file name is outside
this model. -/
def read_file_as_words_list (lines : List (List Char)) (check_input : Bool)
    (comment_char : List Char) : Except LoadErr (List (List Char)) :=
  if check_input then
    match surviving_words comment_char lines with
    | [] => .error .emptyDictionary
    | w0 :: _ =>
      match (surviving_words comment_char lines).find?
          (fun w => w.length != w0.length) with
      | some w => .error (.wrongWordLength w w.length w0.length)
      | none => .ok (surviving_words comment_char lines)
  else
    .ok (lines.map (fun w => upperStr (pyStrip w)))

/-- One turn of `game_routine`'s auto-solver branch for a chosen `guess`:
run `match_check`, stop with `.ok none` when it reports a full match,
otherwise reduce the candidate list, raising `exhaustedCandidates` when it
comes back empty. -/
def autoStep (words : List (List Char)) (correct guess : List Char) :
    Except Err (Option (List (List Char))) :=
  match match_check guess correct with
  | .error e => .error e
  | .ok (state, hints) =>
    if state then .ok none
    else
      match reduce_list words guess hints with
      | .error e => .error e
      | .ok words' =>
        if words' = [] then .error .exhaustedCandidates
        else .ok (some words')

/-- `SafeWithin correct n words`: every possible run of `game_routine`'s
auto-solver loop from candidate list `words` (the guess of each turn being
an arbitrary element of the current list, as `random.choice` may return
any of them) reaches the full-match exit within at most `n` guesses, and
no turn raises any exception — in particular `exhaustedCandidates` is
never raised. -/
def SafeWithin (correct : List Char) : Nat → List (List Char) → Prop
  | 0, _ => False
  | n + 1, words =>
    ∀ guess ∈ words,
      autoStep words correct guess = .ok none ∨
      ∃ words', autoStep words correct guess = .ok (some words') ∧
        SafeWithin correct n words'

/-- An uppercase ASCII letter (the alphabet of dictionary words). -/
def isUpperLetter (c : Char) : Bool :=
  'A' ≤ c && c ≤ 'Z'

/-- A word made only of uppercase ASCII letters. -/
def UpperWord (w : List Char) : Prop :=
  ∀ c ∈ w, isUpperLetter c = true

instance (w : List Char) : Decidable (UpperWord w) :=
  inferInstanceAs (Decidable (∀ c ∈ w, isUpperLetter c = true))

/-- Number of occurrences of `x` in a word. -/
def countc (x : Char) : List Char → Nat
  | [] => 0
  | a :: l => (if a = x then 1 else 0) + countc x l

/-- Number of positions whose guess letter is `x` and whose hint mark is
`'!'` or `'?'` (the positions that "claim" an occurrence of `x` in the
target), walking guess and hint in parallel. -/
def claimedCount (x : Char) : List Char → List Char → Nat
  | a :: gs, c :: hs =>
    (if a = x ∧ (c = '!' ∨ c = '?') then 1 else 0) + claimedCount x gs hs
  | _, _ => 0

/-- Number of positions whose guess letter is `x` and whose hint mark is
`'?'`. -/
def qCount (x : Char) : List Char → List Char → Nat
  | a :: gs, c :: hs => (if a = x ∧ c = '?' then 1 else 0) + qCount x gs hs
  | _, _ => 0

/-- Number of positions where guess and target agree on the letter `x`. -/
def exactCount (x : Char) : List Char → List Char → Nat
  | a :: gs, b :: ts => (if a = x ∧ a = b then 1 else 0) + exactCount x gs ts
  | _, _ => 0

/-- Pointwise pass-1 guess mark: `'!'` on an exact match, else the guess
letter. -/
def exactMark (a b : Char) : Char :=
  if a = b then '!' else a

/-- Pointwise pass-1 target wipe: `'_'` on an exact match, else the target
letter. -/
def exactWipe (a b : Char) : Char :=
  if a = b then '_' else b

/-- Pointwise pass-1 consumption as performed by the constraint filter on
the candidate: `'*'` on an exact match, else the candidate letter. -/
def starWipe (a b : Char) : Char :=
  if a = b then '*' else b

/-- `HintRel g t h`: the per-position relationship between a guess `g`, a
target `t` and the hint `h` the engine produces for them — equal lengths,
`'!'` exactly at the agreeing positions, `'?'` only at disagreeing
positions, and every mark in the `{'!', '?', '_'}` alphabet. -/
def HintRel : List Char → List Char → List Char → Prop
  | [], [], [] => True
  | a :: gs, b :: ts, c :: hs =>
    ((c = '!') ↔ (a = b)) ∧ (c = '?' → a ≠ b) ∧
      (c = '!' ∨ c = '?' ∨ c = '_') ∧ HintRel gs ts hs
  | _, _, _ => False

/-! ### Elementary lemmas about the string primitives -/

theorem replace_char_zero (r x : Char) (xs : List Char) :
    replace_char r (x :: xs) 0 = r :: xs := by
  simp [replace_char]

theorem replace_char_succ (r x : Char) (xs : List Char) (i : Nat) :
    replace_char r (x :: xs) (i + 1) = x :: replace_char r xs i := by
  simp [replace_char]

theorem replace_char_at_len (r x : Char) :
    ∀ (pre xs : List Char), replace_char r (pre ++ x :: xs) pre.length = pre ++ r :: xs := by
  intro pre
  induction pre with
  | nil => intro xs; simpa using replace_char_zero r x xs
  | cons p ps ih =>
    intro xs
    simpa [replace_char_succ] using congrArg (fun l => p :: l) (ih xs)

theorem getElem?_append_len : ∀ (pre xs : List Char), (pre ++ xs)[pre.length]? = xs.head? := by
  intro pre
  induction pre with
  | nil => intro xs; cases xs <;> simp
  | cons p ps ih => intro xs; simpa using ih xs

theorem replaceFirst_of_indexOf (l : Char) :
    ∀ c : List Char, l ∈ c →
      replace_char '_' c (List.indexOf l c) = replaceFirst l '_' c := by
  intro c
  induction c with
  | nil => intro h; cases h
  | cons a cs ih =>
    intro hmem
    by_cases hal : a = l
    · subst hal
      simp [List.indexOf_cons, replaceFirst, replace_char]
    · have hmem' : l ∈ cs := by
        cases hmem with
        | head => exact absurd rfl hal
        | tail _ h => exact h
      have hbeq : (a == l) = false := by
        simpa using hal
      simp only [List.indexOf_cons, hbeq, cond_false, replaceFirst, if_neg hal]
      rw [replace_char_succ, ih hmem']

theorem mem_replaceFirst (old new y : Char) :
    ∀ c : List Char, y ∈ replaceFirst old new c → y ∈ c ∨ y = new := by
  intro c
  induction c with
  | nil => intro h; cases h
  | cons a cs ih =>
    intro hmem
    by_cases hao : a = old
    · rw [replaceFirst, if_pos hao] at hmem
      cases hmem with
      | head => exact Or.inr rfl
      | tail _ h => exact Or.inl (List.mem_cons_of_mem a h)
    · rw [replaceFirst, if_neg hao] at hmem
      cases hmem with
      | head => exact Or.inl (List.mem_cons_self _ _)
      | tail _ h =>
        cases ih h with
        | inl hh => exact Or.inl (List.mem_cons_of_mem a hh)
        | inr hh => exact Or.inr hh

theorem countc_pos_iff_mem (x : Char) : ∀ l : List Char, 0 < countc x l ↔ x ∈ l := by
  intro l
  induction l with
  | nil => simp [countc]
  | cons a as ih =>
    by_cases hax : a = x
    · subst hax; simp [countc]
    · simp only [countc, if_neg hax, Nat.zero_add]
      rw [ih]
      constructor
      · intro h; exact List.mem_cons_of_mem a h
      · intro h
        cases h with
        | head => exact absurd rfl hax
        | tail _ hh => exact hh

theorem countc_replaceFirst (x old new : Char) :
    ∀ c : List Char, old ∈ c → x ≠ new →
      countc x c = countc x (replaceFirst old new c) + (if old = x then 1 else 0) := by
  intro c
  induction c with
  | nil => intro h; cases h
  | cons a cs ih =>
    intro hmem hxn
    by_cases hao : a = old
    · subst hao
      have hnx : ¬(new = x) := fun h => hxn h.symm
      simp only [replaceFirst, if_pos rfl, countc, if_neg hnx]
      omega
    · have hmem' : old ∈ cs := by
        cases hmem with
        | head => exact absurd rfl hao
        | tail _ h => exact h
      simp only [replaceFirst, if_neg hao, countc]
      rw [ih hmem' hxn]
      omega

theorem upper_not_sentinel (c : Char) (h : isUpperLetter c = true) :
    c ≠ '!' ∧ c ≠ '?' ∧ c ≠ '_' ∧ c ≠ '*' := by
  refine ⟨?_, ?_, ?_, ?_⟩ <;> intro hc <;> subst hc <;> exact absurd h (by decide)

/-! ### The enumerate-loops agree with their structural forms -/

theorem mcLoop1_eq_mcExact :
    ∀ (gs : List Char) (k : Nat) (preG preC cs : List Char),
      preG.length = k → preC.length = k →
      mcLoop1 (List.enumFrom k gs) (preG ++ gs) (preC ++ cs) =
        Except.map (fun p => (preG ++ p.1, preC ++ p.2)) (mcExact gs cs) := by
  intro gs
  induction gs with
  | nil =>
    intro k preG preC cs hG hC
    simp [List.enumFrom, mcLoop1, mcExact, Except.map]
  | cons l gs ih =>
    intro k preG preC cs hG hC
    cases cs with
    | nil =>
      have hget : preC[k]? = none := by
        rw [← hC]
        have hh := getElem?_append_len preC []
        simp only [List.append_nil] at hh
        simp [hh]
      simp [List.enumFrom, mcLoop1, hget, mcExact, Except.map]
    | cons c cs =>
      have hget : (preC ++ c :: cs)[k]? = some c := by
        rw [← hC]; simpa using getElem?_append_len preC (c :: cs)
      simp only [List.enumFrom, mcLoop1, hget]
      by_cases hlc : l = c
      · rw [if_pos hlc]
        have h1 : replace_char '!' (preG ++ l :: gs) k = (preG ++ ['!']) ++ gs := by
          rw [← hG, replace_char_at_len]; simp
        have h2 : replace_char '_' (preC ++ c :: cs) k = (preC ++ ['_']) ++ cs := by
          rw [← hC, replace_char_at_len]; simp
        rw [h1, h2, ih (k + 1) (preG ++ ['!']) (preC ++ ['_']) cs (by simp [hG]) (by simp [hC])]
        subst hlc
        cases hmc : mcExact gs cs with
        | error e => simp [mcExact, hmc, Except.map]
        | ok p => simp [mcExact, hmc, Except.map]
      · rw [if_neg hlc]
        have h1 : preG ++ l :: gs = (preG ++ [l]) ++ gs := by simp
        have h2 : preC ++ c :: cs = (preC ++ [c]) ++ cs := by simp
        rw [h1, h2, ih (k + 1) (preG ++ [l]) (preC ++ [c]) cs (by simp [hG]) (by simp [hC])]
        cases hmc : mcExact gs cs with
        | error e => simp [mcExact, hmc, Except.map, if_neg hlc]
        | ok p => simp [mcExact, hmc, Except.map, if_neg hlc]

theorem mcLoop2_eq_mcPresent :
    ∀ (gs : List Char) (k : Nat) (pre c : List Char),
      pre.length = k →
      mcLoop2 (List.enumFrom k gs) (pre ++ gs) c =
        (pre ++ (mcPresent gs c).1, (mcPresent gs c).2) := by
  intro gs
  induction gs with
  | nil =>
    intro k pre c hk
    simp [List.enumFrom, mcLoop2, mcPresent]
  | cons l gs ih =>
    intro k pre c hk
    simp only [List.enumFrom, mcLoop2]
    by_cases hmem : l ∈ c
    · rw [if_pos hmem]
      have h1 : replace_char '?' (pre ++ l :: gs) k = (pre ++ ['?']) ++ gs := by
        rw [← hk, replace_char_at_len]; simp
      rw [h1, replaceFirst_of_indexOf l c hmem,
        ih (k + 1) (pre ++ ['?']) (replaceFirst l '_' c) (by simp [hk])]
      simp [mcPresent, if_pos hmem]
    · rw [if_neg hmem]
      by_cases hbang : l ≠ '!'
      · rw [if_pos hbang]
        have h1 : replace_char '_' (pre ++ l :: gs) k = (pre ++ ['_']) ++ gs := by
          rw [← hk, replace_char_at_len]; simp
        rw [h1, ih (k + 1) (pre ++ ['_']) c (by simp [hk])]
        simp [mcPresent, if_neg hmem, if_pos hbang]
      · rw [if_neg hbang]
        have h1 : pre ++ l :: gs = (pre ++ [l]) ++ gs := by simp
        rw [h1, ih (k + 1) (pre ++ [l]) c (by simp [hk])]
        simp [mcPresent, if_neg hmem, if_neg hbang]

theorem match_check_eq_struct (g c : List Char) :
    match_check g c =
      match mcExact g c with
      | .error e => .error e
      | .ok p =>
        if p.1.all (fun l => l == '!') then .ok (true, p.1)
        else .ok (false, (mcPresent p.1 p.2).1) := by
  have h1 := mcLoop1_eq_mcExact g 0 [] [] c rfl rfl
  simp only [List.nil_append] at h1
  unfold match_check
  rw [show List.enum g = List.enumFrom 0 g from rfl, h1]
  cases hmc : mcExact g c with
  | error e => rfl
  | ok p =>
    obtain ⟨g1, c1⟩ := p
    simp only [Except.map]
    by_cases hall : g1.all (fun l => l == '!') = true
    · simp [hall]
    · have h2 := mcLoop2_eq_mcPresent g1 0 [] c1 rfl
      simp only [List.nil_append] at h2
      have henum : g1.enum = List.enumFrom 0 g1 := rfl
      rw [Bool.not_eq_true] at hall
      simp [hall, henum, h2]

theorem cwLoop1_eq_cwExact :
    ∀ (hs : List Char) (k : Nat) (preG preW gs ws : List Char),
      preG.length = k → preW.length = k →
      hs.length ≤ gs.length → hs.length ≤ ws.length →
      cwLoop1 (List.enumFrom k hs) (preG ++ gs) (preW ++ ws) =
        Except.map (Option.map (fun w => preW ++ w)) (cwExact hs gs ws) := by
  intro hs
  induction hs with
  | nil =>
    intro k preG preW gs ws hG hW hlg hlw
    simp [List.enumFrom, cwLoop1, cwExact, Except.map]
  | cons hint hs ih =>
    intro k preG preW gs ws hG hW hlg hlw
    cases gs with
    | nil => simp at hlg
    | cons g0 gs =>
      cases ws with
      | nil => simp at hlw
      | cons w0 ws =>
        have hlg' : hs.length ≤ gs.length := by simpa using hlg
        have hlw' : hs.length ≤ ws.length := by simpa using hlw
        have hg : (preG ++ g0 :: gs)[k]? = some g0 := by
          rw [← hG]; simpa using getElem?_append_len preG (g0 :: gs)
        have hw : (preW ++ w0 :: ws)[k]? = some w0 := by
          rw [← hW]; simpa using getElem?_append_len preW (w0 :: ws)
        simp only [List.enumFrom, cwLoop1, cwExact, hg, hw]
        by_cases hv : hint ∈ (['!', '?', '_'] : List Char)
        · have hnv : ¬(hint ∉ (['!', '?', '_'] : List Char)) := fun hh => hh hv
          rw [if_neg hnv, if_neg hnv]
          by_cases hbang : hint = '!'
          · rw [if_pos hbang, if_pos hbang]
            by_cases hgw : g0 = w0
            · rw [if_pos hgw, if_pos hgw]
              have hrw : replace_char '*' (preW ++ w0 :: ws) k = (preW ++ ['*']) ++ ws := by
                rw [← hW, replace_char_at_len]; simp
              rw [hrw, show preG ++ g0 :: gs = (preG ++ [g0]) ++ gs by simp,
                ih (k + 1) (preG ++ [g0]) (preW ++ ['*']) gs ws (by simp [hG]) (by simp [hW])
                  hlg' hlw']
              cases hr : cwExact hs gs ws with
              | error e => simp [Except.map]
              | ok o => cases o <;> simp [Except.map]
            · rw [if_neg hgw, if_neg hgw]
              rfl
          · rw [if_neg hbang, if_neg hbang]
            by_cases hq : hint = '?'
            · rw [if_pos hq, if_pos hq]
              by_cases hgw : g0 = w0
              · rw [if_pos hgw, if_pos hgw]
                rfl
              · rw [if_neg hgw, if_neg hgw,
                  show preG ++ g0 :: gs = (preG ++ [g0]) ++ gs by simp,
                  show preW ++ w0 :: ws = (preW ++ [w0]) ++ ws by simp,
                  ih (k + 1) (preG ++ [g0]) (preW ++ [w0]) gs ws (by simp [hG]) (by simp [hW])
                    hlg' hlw']
                cases hr : cwExact hs gs ws with
                | error e => simp [Except.map]
                | ok o => cases o <;> simp [Except.map]
            · rw [if_neg hq, if_neg hq,
                show preG ++ g0 :: gs = (preG ++ [g0]) ++ gs by simp,
                show preW ++ w0 :: ws = (preW ++ [w0]) ++ ws by simp,
                ih (k + 1) (preG ++ [g0]) (preW ++ [w0]) gs ws (by simp [hG]) (by simp [hW])
                  hlg' hlw']
              cases hr : cwExact hs gs ws with
              | error e => simp [Except.map]
              | ok o => cases o <;> simp [Except.map]
        · rw [if_pos hv, if_pos hv]
          rfl

theorem cwLoop2_eq_cwPresent :
    ∀ (hs : List Char) (k : Nat) (preG gs w : List Char),
      preG.length = k → hs.length ≤ gs.length →
      cwLoop2 (List.enumFrom k hs) (preG ++ gs) w = cwPresent hs gs w := by
  intro hs
  induction hs with
  | nil =>
    intro k preG gs w hG hlg
    simp [List.enumFrom, cwLoop2, cwPresent]
  | cons hint hs ih =>
    intro k preG gs w hG hlg
    cases gs with
    | nil => simp at hlg
    | cons g0 gs =>
      have hlg' : hs.length ≤ gs.length := by simpa using hlg
      have hg : (preG ++ g0 :: gs)[k]? = some g0 := by
        rw [← hG]; simpa using getElem?_append_len preG (g0 :: gs)
      simp only [List.enumFrom, cwLoop2, cwPresent, hg]
      by_cases hq : hint = '?'
      · rw [if_pos hq, if_pos hq]
        by_cases hmem : g0 ∈ w
        · rw [if_pos hmem, if_pos hmem,
            show preG ++ g0 :: gs = (preG ++ [g0]) ++ gs by simp,
            ih (k + 1) (preG ++ [g0]) gs (replaceFirst g0 '*' w) (by simp [hG]) hlg']
        · rw [if_neg hmem, if_neg hmem]
      · rw [if_neg hq, if_neg hq]
        by_cases hu : hint = '_'
        · rw [if_pos hu, if_pos hu]
          by_cases hmem : g0 ∈ w
          · rw [if_pos hmem, if_pos hmem]
          · rw [if_neg hmem, if_neg hmem,
              show preG ++ g0 :: gs = (preG ++ [g0]) ++ gs by simp,
              ih (k + 1) (preG ++ [g0]) gs w (by simp [hG]) hlg']
        · rw [if_neg hu, if_neg hu,
            show preG ++ g0 :: gs = (preG ++ [g0]) ++ gs by simp,
            ih (k + 1) (preG ++ [g0]) gs w (by simp [hG]) hlg']

theorem check_word_eq_struct (word guess hints : List Char)
    (h1 : hints.length ≤ guess.length) (h2 : hints.length ≤ word.length) :
    check_word_vs_guess_and_hints word guess hints =
      match cwExact hints guess word with
      | .error e => .error e
      | .ok none => .ok false
      | .ok (some word1) =>
        match cwPresent hints guess word1 with
        | .error e => .error e
        | .ok none => .ok false
        | .ok (some _) => .ok true := by
  have e1 := cwLoop1_eq_cwExact hints 0 [] [] guess word rfl rfl h1 h2
  simp only [List.nil_append] at e1
  unfold check_word_vs_guess_and_hints
  rw [show hints.enum = List.enumFrom 0 hints from rfl, e1]
  cases hx : cwExact hints guess word with
  | error e => rfl
  | ok o =>
    cases o with
    | none => rfl
    | some w1 =>
      have e2 := cwLoop2_eq_cwPresent hints 0 [] guess w1 rfl h1
      simp only [List.nil_append] at e2
      simp only [Except.map, Option.map]
      rw [e2]

/-! ### Characterization of the exact-match pass -/

theorem mcExact_eq_zipWith :
    ∀ (g c : List Char), g.length ≤ c.length →
      mcExact g c =
        .ok (List.zipWith exactMark g c,
          List.zipWith exactWipe g c ++ c.drop g.length) := by
  intro g
  induction g with
  | nil => intro c hc; simp [mcExact]
  | cons l gs ih =>
    intro c hc
    cases c with
    | nil => simp at hc
    | cons c0 cs =>
      have hc' : gs.length ≤ cs.length := by simpa using hc
      by_cases hlc : l = c0
      · simp [mcExact, if_pos hlc, ih cs hc', Except.map, List.zipWith,
          exactMark, exactWipe, hlc]
      · simp [mcExact, if_neg hlc, ih cs hc', Except.map, List.zipWith,
          exactMark, exactWipe, hlc]

theorem mcExact_error :
    ∀ (g c : List Char), c.length < g.length → mcExact g c = .error .indexError := by
  intro g
  induction g with
  | nil => intro c hc; simp at hc
  | cons l gs ih =>
    intro c hc
    cases c with
    | nil => rfl
    | cons c0 cs =>
      have hc' : cs.length < gs.length := by simpa using hc
      by_cases hlc : l = c0
      · simp [mcExact, if_pos hlc, ih cs hc', Except.map]
      · simp [mcExact, if_neg hlc, ih cs hc', Except.map]

/-! ### Properties of the presence pass -/

theorem mcPresent_length : ∀ (g c : List Char), (mcPresent g c).1.length = g.length := by
  intro g
  induction g with
  | nil => intro c; rfl
  | cons l gs ih =>
    intro c
    by_cases hmem : l ∈ c
    · simp [mcPresent, if_pos hmem, ih]
    · by_cases hbang : l ≠ '!'
      · simp [mcPresent, if_neg hmem, if_pos hbang, ih]
      · simp [mcPresent, if_neg hmem, if_neg hbang, ih]

theorem hintRel_of_mcPresent :
    ∀ (g t c : List Char), g.length = t.length → UpperWord g → '!' ∉ c →
      HintRel g t (mcPresent (List.zipWith exactMark g t) c).1 := by
  intro g
  induction g with
  | nil =>
    intro t c hlen _ _
    cases t with
    | nil => simp [mcPresent, HintRel]
    | cons b ts => simp at hlen
  | cons a gs ih =>
    intro t c hlen hup hbc
    cases t with
    | nil => simp at hlen
    | cons b ts =>
      have hlen' : gs.length = ts.length := by simpa using hlen
      have hup' : UpperWord gs := fun x hx => hup x (List.mem_cons_of_mem a hx)
      have hua : isUpperLetter a = true := hup a (List.mem_cons_self a gs)
      have hane : a ≠ '!' := (upper_not_sentinel a hua).1
      by_cases hab : a = b
      · have hmark : exactMark a b = '!' := by simp [exactMark, hab]
        simp only [List.zipWith, hmark, mcPresent, if_neg hbc,
          if_neg (show ¬('!' : Char) ≠ '!' by simp)]
        exact ⟨iff_of_true rfl hab, fun hq => absurd hq (by decide),
          Or.inl rfl, ih ts c hlen' hup' hbc⟩
      · have hmark : exactMark a b = a := by simp [exactMark, hab]
        by_cases hmem : a ∈ c
        · have hbc' : '!' ∉ replaceFirst a '_' c := by
            intro hx
            rcases mem_replaceFirst a '_' '!' c hx with hh | hh
            · exact hbc hh
            · exact absurd hh (by decide)
          simp only [List.zipWith, hmark, mcPresent, if_pos hmem]
          exact ⟨iff_of_false (by decide) hab, fun _ => hab,
            Or.inr (Or.inl rfl), ih ts (replaceFirst a '_' c) hlen' hup' hbc'⟩
        · simp only [List.zipWith, hmark, mcPresent, if_neg hmem, if_pos hane]
          exact ⟨iff_of_false (by decide) hab, fun hq => absurd hq (by decide),
            Or.inr (Or.inr rfl), ih ts c hlen' hup' hbc⟩

theorem mcPresent_count :
    ∀ (g c : List Char) (x : Char), x ≠ '_' →
      countc x (mcPresent g c).2 + qCount x g (mcPresent g c).1 = countc x c := by
  intro g
  induction g with
  | nil => intro c x hx; simp [mcPresent, qCount]
  | cons l gs ih =>
    intro c x hx
    by_cases hmem : l ∈ c
    · have hcount := countc_replaceFirst x l '_' c hmem hx
      have hih := ih (replaceFirst l '_' c) x hx
      simp only [mcPresent, if_pos hmem, qCount, and_true, if_pos rfl]
      by_cases hlx : l = x
      · simp only [if_pos hlx] at hcount ⊢
        omega
      · simp only [if_neg hlx] at hcount ⊢
        omega
    · by_cases hbang : l ≠ '!'
      · have hih := ih c x hx
        simp only [mcPresent, if_neg hmem, if_pos hbang, qCount,
          if_neg (fun hh => absurd hh.2 (by decide) : ¬(l = x ∧ ('_' : Char) = '?'))]
        omega
      · rw [not_not] at hbang
        have hih := ih c x hx
        simp only [mcPresent, if_neg hmem, if_neg (by simp [hbang] : ¬(l ≠ '!')), qCount,
          if_neg (fun hh => absurd (hbang ▸ hh.2) (by decide) : ¬(l = x ∧ l = '?'))]
        omega

/-! ### Counting lemmas relating guess, target and scratch strings -/

theorem count_exactWipe :
    ∀ (g t : List Char) (x : Char), g.length = t.length → x ≠ '_' →
      countc x t = exactCount x g t + countc x (List.zipWith exactWipe g t) := by
  intro g
  induction g with
  | nil =>
    intro t x hlen hx
    cases t with
    | nil => simp [countc, exactCount]
    | cons b ts => simp at hlen
  | cons a gs ih =>
    intro t x hlen hx
    cases t with
    | nil => simp at hlen
    | cons b ts =>
      have hlen' : gs.length = ts.length := by simpa using hlen
      have hih := ih ts x hlen' hx
      by_cases hab : a = b
      · have hwipe : exactWipe a b = '_' := by simp [exactWipe, hab]
        simp only [List.zipWith, hwipe, countc, exactCount,
          if_neg (fun hh => hx hh.symm : ¬(('_' : Char) = x))]
        by_cases hbx : b = x
        · simp only [if_pos hbx, if_pos (⟨hab ▸ hbx, hab⟩ : a = x ∧ a = b)]
          omega
        · simp only [if_neg hbx,
            if_neg (fun hh => hbx (hab ▸ hh.1) : ¬(a = x ∧ a = b))]
          omega
      · have hwipe : exactWipe a b = b := by simp [exactWipe, hab]
        simp only [List.zipWith, hwipe, countc, exactCount,
          if_neg (fun hh => hab hh.2 : ¬(a = x ∧ a = b))]
        omega

theorem count_wipe_star :
    ∀ (g t : List Char) (x : Char), x ≠ '_' → x ≠ '*' →
      countc x (List.zipWith exactWipe g t) = countc x (List.zipWith starWipe g t) := by
  intro g
  induction g with
  | nil => intro t x h1 h2; simp
  | cons a gs ih =>
    intro t x h1 h2
    cases t with
    | nil => simp
    | cons b ts =>
      by_cases hab : a = b
      · simp only [List.zipWith, exactWipe, starWipe, if_pos hab, countc,
          if_neg (fun hh => h1 hh.symm : ¬(('_' : Char) = x)),
          if_neg (fun hh => h2 hh.symm : ¬(('*' : Char) = x))]
        simpa using ih ts x h1 h2
      · simp only [List.zipWith, exactWipe, starWipe, if_neg hab, countc]
        have := ih ts x h1 h2
        omega

theorem mem_zipWith_ex (f : Char → Char → Char) :
    ∀ (g t : List Char) (x : Char), x ∈ List.zipWith f g t →
      ∃ a ∈ g, ∃ b ∈ t, x = f a b := by
  intro g
  induction g with
  | nil => intro t x hx; simp at hx
  | cons a gs ih =>
    intro t x hx
    cases t with
    | nil => simp at hx
    | cons b ts =>
      simp only [List.zipWith, List.mem_cons] at hx
      cases hx with
      | inl hh =>
        exact ⟨a, List.mem_cons_self a gs, b, List.mem_cons_self b ts, hh⟩
      | inr hh =>
        obtain ⟨a', ha', b', hb', hfb⟩ := ih ts x hh
        exact ⟨a', List.mem_cons_of_mem a ha', b', List.mem_cons_of_mem b hb', hfb⟩

theorem forall2_exactMark :
    ∀ (g t : List Char), g.length = t.length →
      List.Forall₂ (fun a b => a = '!' ∨ a = b) (List.zipWith exactMark g t) g := by
  intro g
  induction g with
  | nil => intro t hlen; simp
  | cons a gs ih =>
    intro t hlen
    cases t with
    | nil => simp at hlen
    | cons b ts =>
      have hlen' : gs.length = ts.length := by simpa using hlen
      by_cases hab : a = b
      · simp only [List.zipWith, exactMark, if_pos hab]
        exact List.Forall₂.cons (Or.inl rfl) (ih ts hlen')
      · simp only [List.zipWith, exactMark, if_neg hab]
        exact List.Forall₂.cons (Or.inr rfl) (ih ts hlen')

theorem zipWith_exactMark_self :
    ∀ g : List Char, List.zipWith exactMark g g = List.replicate g.length '!' := by
  intro g
  induction g with
  | nil => rfl
  | cons a gs ih =>
    simp [List.zipWith_cons_cons, exactMark, ih, List.replicate_succ]

theorem all_bang_iff_eq :
    ∀ (g t : List Char), UpperWord g → g.length = t.length →
      (((List.zipWith exactMark g t).all (fun l => l == '!')) = true ↔ g = t) := by
  intro g
  induction g with
  | nil =>
    intro t _ hlen
    cases t with
    | nil => simp
    | cons b ts => simp at hlen
  | cons a gs ih =>
    intro t hup hlen
    cases t with
    | nil => simp at hlen
    | cons b ts =>
      have hlen' : gs.length = ts.length := by simpa using hlen
      have hup' : UpperWord gs := fun x hx => hup x (List.mem_cons_of_mem a hx)
      have hane : a ≠ '!' :=
        (upper_not_sentinel a (hup a (List.mem_cons_self a gs))).1
      by_cases hab : a = b
      · subst hab
        simp only [List.zipWith, exactMark, if_pos rfl, List.all_cons, beq_self_eq_true,
          Bool.true_and, List.cons.injEq, eq_self_iff_true, true_and]
        exact ih ts hup' hlen'
      · have hbeq : (a == '!') = false := by simpa using hane
        simp only [List.zipWith, exactMark, if_neg hab, List.all_cons, hbeq,
          Bool.false_and, List.cons.injEq, Bool.false_eq_true, false_iff]
        exact fun hh => hab hh.1

/-! ### Unfolding equations for the counters -/

theorem countc_cons (x a : Char) (l : List Char) :
    countc x (a :: l) = (if a = x then 1 else 0) + countc x l := rfl

theorem claimedCount_cons (x a c : Char) (gs hs : List Char) :
    claimedCount x (a :: gs) (c :: hs) =
      (if a = x ∧ (c = '!' ∨ c = '?') then 1 else 0) + claimedCount x gs hs := rfl

theorem qCount_cons (x a c : Char) (gs hs : List Char) :
    qCount x (a :: gs) (c :: hs) =
      (if a = x ∧ c = '?' then 1 else 0) + qCount x gs hs := rfl

theorem exactCount_cons (x a b : Char) (gs ts : List Char) :
    exactCount x (a :: gs) (b :: ts) =
      (if a = x ∧ a = b then 1 else 0) + exactCount x gs ts := rfl

/-! ### Consequences of `HintRel` -/

theorem hintRel_length :
    ∀ g t h : List Char, HintRel g t h → g.length = t.length ∧ t.length = h.length := by
  intro g
  induction g with
  | nil =>
    intro t h hrel
    cases t with
    | nil =>
      cases h with
      | nil => exact ⟨rfl, rfl⟩
      | cons c hs => exact absurd hrel (by simp [HintRel])
    | cons b ts => exact absurd hrel (by simp [HintRel])
  | cons a gs ih =>
    intro t h hrel
    cases t with
    | nil => exact absurd hrel (by simp [HintRel])
    | cons b ts =>
      cases h with
      | nil => exact absurd hrel (by simp [HintRel])
      | cons c hs =>
        have htail := ih ts hs hrel.2.2.2
        simp [List.length_cons, htail.1, htail.2]

theorem hintRel_getD :
    ∀ (g t h : List Char), HintRel g t h → ∀ (i : Nat) (d : Char), i < g.length →
      (h.getD i d = '!' ↔ g.getD i d = t.getD i d) := by
  intro g
  induction g with
  | nil => intro t h _ i d hi; simp at hi
  | cons a gs ih =>
    intro t h hrel i d hi
    cases t with
    | nil => exact absurd hrel (by simp [HintRel])
    | cons b ts =>
      cases h with
      | nil => exact absurd hrel (by simp [HintRel])
      | cons c hs =>
        cases i with
        | zero => simpa [List.getD_cons_zero] using hrel.1
        | succ n =>
          have hn : n < gs.length := by simpa using hi
          simpa [List.getD_cons_succ] using ih ts hs hrel.2.2.2 n d hn

theorem hintRel_alphabet :
    ∀ (g t h : List Char), HintRel g t h → ∀ c ∈ h, c = '!' ∨ c = '?' ∨ c = '_' := by
  intro g
  induction g with
  | nil =>
    intro t h hrel c hc
    cases t with
    | nil =>
      cases h with
      | nil => simp at hc
      | cons c0 hs => exact absurd hrel (by simp [HintRel])
    | cons b ts => exact absurd hrel (by simp [HintRel])
  | cons a gs ih =>
    intro t h hrel c hc
    cases t with
    | nil => exact absurd hrel (by simp [HintRel])
    | cons b ts =>
      cases h with
      | nil => exact absurd hrel (by simp [HintRel])
      | cons c0 hs =>
        cases hc with
        | head => exact hrel.2.2.1
        | tail _ hmem => exact ih ts hs hrel.2.2.2 c hmem

theorem hintRel_pair_ne :
    ∀ (g t h : List Char), HintRel g t h → g ≠ t → ∃ p ∈ h.zip g, p.1 ≠ '!' := by
  intro g
  induction g with
  | nil =>
    intro t h hrel hne
    cases t with
    | nil =>
      cases h with
      | nil => exact absurd rfl hne
      | cons c hs => exact absurd hrel (by simp [HintRel])
    | cons b ts => exact absurd hrel (by simp [HintRel])
  | cons a gs ih =>
    intro t h hrel hne
    cases t with
    | nil => exact absurd hrel (by simp [HintRel])
    | cons b ts =>
      cases h with
      | nil => exact absurd hrel (by simp [HintRel])
      | cons c hs =>
        have hzip : (c :: hs).zip (a :: gs) = (c, a) :: hs.zip gs := rfl
        by_cases hab : a = b
        · have hne' : gs ≠ ts := by
            intro hh
            exact hne (by rw [hab, hh])
          obtain ⟨p, hp, hpne⟩ := ih ts hs hrel.2.2.2 hne'
          rw [hzip]
          exact ⟨p, List.mem_cons_of_mem _ hp, hpne⟩
        · rw [hzip]
          refine ⟨(c, a), List.mem_cons_self _ _, ?_⟩
          intro hc
          exact hab (hrel.1.mp hc)

theorem hintRel_qCount :
    ∀ (g t h : List Char) (x : Char), HintRel g t h →
      qCount x g h = qCount x (List.zipWith exactMark g t) h := by
  intro g
  induction g with
  | nil => intro t h x _; rfl
  | cons a gs ih =>
    intro t h x hrel
    cases t with
    | nil => exact absurd hrel (by simp [HintRel])
    | cons b ts =>
      cases h with
      | nil => exact absurd hrel (by simp [HintRel])
      | cons c hs =>
        have htail := ih ts hs x hrel.2.2.2
        rw [List.zipWith_cons_cons, qCount_cons, qCount_cons, htail]
        by_cases hq : c = '?'
        · have hab : a ≠ b := hrel.2.1 hq
          have hmark : exactMark a b = a := by simp [exactMark, hab]
          rw [hmark]
        · rw [if_neg (fun hh => hq hh.2 : ¬(a = x ∧ c = '?')),
            if_neg (fun hh => hq hh.2 : ¬(exactMark a b = x ∧ c = '?'))]

theorem hintRel_claimed :
    ∀ (g t h : List Char) (x : Char), HintRel g t h →
      claimedCount x g h = exactCount x g t + qCount x g h := by
  intro g
  induction g with
  | nil =>
    intro t h x hrel
    cases t with
    | nil =>
      cases h with
      | nil => rfl
      | cons c hs => exact absurd hrel (by simp [HintRel])
    | cons b ts => exact absurd hrel (by simp [HintRel])
  | cons a gs ih =>
    intro t h x hrel
    cases t with
    | nil => exact absurd hrel (by simp [HintRel])
    | cons b ts =>
      cases h with
      | nil => exact absurd hrel (by simp [HintRel])
      | cons c hs =>
        have htail := ih ts hs x hrel.2.2.2
        rw [claimedCount_cons, exactCount_cons, qCount_cons, htail]
        rcases hrel.2.2.1 with hc | hc | hc
        · subst hc
          have hab : a = b := hrel.1.mp rfl
          by_cases hax : a = x
          · rw [if_pos (⟨hax, Or.inl rfl⟩ : a = x ∧ (('!' : Char) = '!' ∨ ('!' : Char) = '?')),
              if_pos (⟨hax, hab⟩ : a = x ∧ a = b),
              if_neg (fun hh => absurd hh.2 (by decide) : ¬(a = x ∧ ('!' : Char) = '?'))]
            omega
          · rw [if_neg (fun hh => hax hh.1 :
                ¬(a = x ∧ (('!' : Char) = '!' ∨ ('!' : Char) = '?'))),
              if_neg (fun hh => hax hh.1 : ¬(a = x ∧ a = b)),
              if_neg (fun hh => hax hh.1 : ¬(a = x ∧ ('!' : Char) = '?'))]
            omega
        · subst hc
          have hab : a ≠ b := hrel.2.1 rfl
          by_cases hax : a = x
          · rw [if_pos (⟨hax, Or.inr rfl⟩ : a = x ∧ (('?' : Char) = '!' ∨ ('?' : Char) = '?')),
              if_neg (fun hh => hab hh.2 : ¬(a = x ∧ a = b)),
              if_pos (⟨hax, rfl⟩ : a = x ∧ ('?' : Char) = '?')]
            omega
          · rw [if_neg (fun hh => hax hh.1 :
                ¬(a = x ∧ (('?' : Char) = '!' ∨ ('?' : Char) = '?'))),
              if_neg (fun hh => hax hh.1 : ¬(a = x ∧ a = b)),
              if_neg (fun hh => hax hh.1 : ¬(a = x ∧ ('?' : Char) = '?'))]
            omega
        · subst hc
          have hab : a ≠ b := fun hh => absurd (hrel.1.mpr hh) (by decide)
          rw [if_neg (fun hh => hh.2.elim (fun h2 => absurd h2 (by decide))
              (fun h2 => absurd h2 (by decide)) :
              ¬(a = x ∧ (('_' : Char) = '!' ∨ ('_' : Char) = '?'))),
            if_neg (fun hh => hab hh.2 : ¬(a = x ∧ a = b)),
            if_neg (fun hh => absurd hh.2 (by decide) : ¬(a = x ∧ ('_' : Char) = '?'))]
          omega

theorem claimedCount_zero_of_absent :
    ∀ (g h : List Char) (x : Char), (∀ a ∈ g, a ≠ x) → claimedCount x g h = 0 := by
  intro g
  induction g with
  | nil => intro h x _; rfl
  | cons a gs ih =>
    intro h x habs
    cases h with
    | nil => rfl
    | cons c hs =>
      rw [claimedCount_cons,
        if_neg (fun hh => habs a (List.mem_cons_self a gs) hh.1 :
          ¬(a = x ∧ (c = '!' ∨ c = '?')))]
      simpa using ih hs x (fun y hy => habs y (List.mem_cons_of_mem a hy))

theorem claimedCount_replicate_bang :
    ∀ (g : List Char) (x : Char),
      claimedCount x g (List.replicate g.length '!') = countc x g := by
  intro g
  induction g with
  | nil => intro x; rfl
  | cons a gs ih =>
    intro x
    rw [List.length_cons, List.replicate_succ, claimedCount_cons, countc_cons, ih]
    by_cases hax : a = x
    · rw [if_pos (⟨hax, Or.inl rfl⟩ : a = x ∧ (('!' : Char) = '!' ∨ ('!' : Char) = '?')),
        if_pos hax]
    · rw [if_neg (fun hh => hax hh.1 :
        ¬(a = x ∧ (('!' : Char) = '!' ∨ ('!' : Char) = '?'))), if_neg hax]

theorem getD_replicate_bang :
    ∀ (n i : Nat) (d : Char), i < n → (List.replicate n '!').getD i d = '!' := by
  intro n
  induction n with
  | zero => intro i d hi; simp at hi
  | succ m ih =>
    intro i d hi
    cases i with
    | zero => simp [List.replicate_succ, List.getD_cons_zero]
    | succ k =>
      have hk : k < m := by omega
      simpa [List.replicate_succ, List.getD_cons_succ] using ih k d hk

theorem mem_zip_left_pair :
    ∀ (h g : List Char) (c : Char), c ∈ h → h.length ≤ g.length →
      ∃ p ∈ h.zip g, p.1 = c := by
  intro h
  induction h with
  | nil => intro g c hc _; simp at hc
  | cons c0 hs ih =>
    intro g c hc hlen
    cases g with
    | nil => simp at hlen
    | cons g0 gs =>
      have hzip : (c0 :: hs).zip (g0 :: gs) = (c0, g0) :: hs.zip gs := rfl
      rw [hzip]
      cases hc with
      | head => exact ⟨(c0, g0), List.mem_cons_self _ _, rfl⟩
      | tail _ hmem =>
        obtain ⟨p, hp, hpc⟩ := ih gs c hmem (by simpa using hlen)
        exact ⟨p, List.mem_cons_of_mem _ hp, hpc⟩

/-! ### The constraint filter accepts the target (core of soundness) -/

theorem cwExact_of_hintRel :
    ∀ (g t h : List Char), HintRel g t h →
      cwExact h g t = .ok (some (List.zipWith starWipe g t)) := by
  intro g
  induction g with
  | nil =>
    intro t h hrel
    cases t with
    | nil =>
      cases h with
      | nil => rfl
      | cons c hs => exact absurd hrel (by simp [HintRel])
    | cons b ts => exact absurd hrel (by simp [HintRel])
  | cons a gs ih =>
    intro t h hrel
    cases t with
    | nil => exact absurd hrel (by simp [HintRel])
    | cons b ts =>
      cases h with
      | nil => exact absurd hrel (by simp [HintRel])
      | cons c hs =>
        have htail := ih ts hs hrel.2.2.2
        rcases hrel.2.2.1 with hc | hc | hc
        · subst hc
          have hab : a = b := hrel.1.mp rfl
          subst hab
          simp [cwExact, htail, Except.map, List.zipWith_cons_cons, starWipe]
        · subst hc
          have hab : a ≠ b := hrel.2.1 rfl
          simp [cwExact, htail, Except.map, List.zipWith_cons_cons, starWipe, hab]
        · subst hc
          have hab : a ≠ b := fun hh => absurd (hrel.1.mpr hh) (by decide)
          simp [cwExact, htail, Except.map, List.zipWith_cons_cons, starWipe, hab]

theorem cwPresent_sim :
    ∀ (g1 g : List Char), List.Forall₂ (fun a b => a = '!' ∨ a = b) g1 g →
      ∀ (c w : List Char),
        (∀ a ∈ g1, a ≠ '_' ∧ a ≠ '*') → '!' ∉ c →
        (∀ x : Char, x ≠ '_' → x ≠ '*' → countc x c = countc x w) →
        ∃ w', cwPresent (mcPresent g1 c).1 g w = .ok (some w') := by
  intro g1 g hf
  induction hf with
  | nil =>
    intro c w _ _ _
    exact ⟨w, rfl⟩
  | @cons a b g1' g' hab htail ih =>
    intro c w hsent hbc hcnt
    have hsent' : ∀ x ∈ g1', x ≠ '_' ∧ x ≠ '*' :=
      fun x hx => hsent x (List.mem_cons_of_mem a hx)
    have hsa := hsent a (List.mem_cons_self a g1')
    by_cases hmem : a ∈ c
    · have hane : a ≠ '!' := fun hh => hbc (hh ▸ hmem)
      have hfirst : a = b := hab.resolve_left hane
      subst hfirst
      have hmemw : a ∈ w := by
        have h1 := hcnt a hsa.1 hsa.2
        have h2 : 0 < countc a c := (countc_pos_iff_mem a c).mpr hmem
        exact (countc_pos_iff_mem a w).mp (h1 ▸ h2)
      have hbc' : '!' ∉ replaceFirst a '_' c := fun hx =>
        (mem_replaceFirst a '_' '!' c hx).elim hbc (fun hh => absurd hh (by decide))
      have hcnt' : ∀ x : Char, x ≠ '_' → x ≠ '*' →
          countc x (replaceFirst a '_' c) = countc x (replaceFirst a '*' w) := by
        intro x hx1 hx2
        have e1 := countc_replaceFirst x a '_' c hmem hx1
        have e2 := countc_replaceFirst x a '*' w hmemw hx2
        have e3 := hcnt x hx1 hx2
        omega
      obtain ⟨w', hw'⟩ := ih (replaceFirst a '_' c) (replaceFirst a '*' w) hsent' hbc' hcnt'
      refine ⟨w', ?_⟩
      simpa [mcPresent, hmem, cwPresent, hmemw] using hw'
    · by_cases hbang : a = '!'
      · subst hbang
        obtain ⟨w', hw'⟩ := ih c w hsent' hbc hcnt
        refine ⟨w', ?_⟩
        simpa [mcPresent, hmem, cwPresent] using hw'
      · have hfirst : a = b := hab.resolve_left hbang
        subst hfirst
        have hnw : a ∉ w := by
          intro hmw
          have h1 := hcnt a hsa.1 hsa.2
          have h2 : 0 < countc a w := (countc_pos_iff_mem a w).mpr hmw
          rw [← h1] at h2
          exact hmem ((countc_pos_iff_mem a c).mp h2)
        obtain ⟨w', hw'⟩ := ih c w hsent' hbc hcnt
        refine ⟨w', ?_⟩
        simpa [mcPresent, hmem, hbang, cwPresent, hnw] using hw'

theorem cwExact_replicate_bang :
    ∀ w : List Char,
      cwExact (List.replicate w.length '!') w w =
        .ok (some (List.replicate w.length '*')) := by
  intro w
  induction w with
  | nil => rfl
  | cons a ws ih =>
    simp [List.replicate_succ, cwExact, ih, Except.map]

theorem cwPresent_all_bang :
    ∀ (hs g w : List Char), (∀ c ∈ hs, c = '!') → hs.length ≤ g.length →
      cwPresent hs g w = .ok (some w) := by
  intro hs
  induction hs with
  | nil => intro g w _ _; rfl
  | cons c hs ih =>
    intro g w hall hlen
    cases g with
    | nil => simp at hlen
    | cons g0 gs =>
      have hc : c = '!' := hall c (List.mem_cons_self c hs)
      subst hc
      simpa [cwPresent] using
        ih gs w (fun x hx => hall x (List.mem_cons_of_mem _ hx)) (by simpa using hlen)

/-! ### The filter rejects the guess itself after a non-winning turn -/

theorem cwExact_self_q :
    ∀ (h g : List Char), h.length ≤ g.length →
      (∀ c ∈ h, c = '!' ∨ c = '?' ∨ c = '_') → '?' ∈ h →
      cwExact h g g = .ok none := by
  intro h
  induction h with
  | nil => intro g _ _ hq; simp at hq
  | cons c hs ih =>
    intro g hlen halpha hq
    cases g with
    | nil => simp at hlen
    | cons g0 gs =>
      rcases halpha c (List.mem_cons_self c hs) with hc | hc | hc
      · subst hc
        have hq' : '?' ∈ hs := by
          rcases List.mem_cons.mp hq with hh | hh
          · exact absurd hh (by decide)
          · exact hh
        simp [cwExact, ih gs (by simpa using hlen)
          (fun x hx => halpha x (List.mem_cons_of_mem _ hx)) hq', Except.map]
      · subst hc
        simp [cwExact]
      · subst hc
        have hq' : '?' ∈ hs := by
          rcases List.mem_cons.mp hq with hh | hh
          · exact absurd hh (by decide)
          · exact hh
        simp [cwExact, ih gs (by simpa using hlen)
          (fun x hx => halpha x (List.mem_cons_of_mem _ hx)) hq', Except.map]

theorem cwExact_self_noq :
    ∀ (h g : List Char), h.length ≤ g.length →
      (∀ c ∈ h, c = '!' ∨ c = '_') →
      ∃ w1, cwExact h g g = .ok (some w1) ∧
        ∀ p ∈ h.zip g, p.1 = '_' → p.2 ∈ w1 := by
  intro h
  induction h with
  | nil =>
    intro g _ _
    exact ⟨g, rfl, by simp⟩
  | cons c hs ih =>
    intro g hlen halpha
    cases g with
    | nil => simp at hlen
    | cons g0 gs =>
      obtain ⟨w1, hw1, hprop⟩ := ih gs (by simpa using hlen)
        (fun x hx => halpha x (List.mem_cons_of_mem _ hx))
      rcases halpha c (List.mem_cons_self c hs) with hc | hc
      · subst hc
        refine ⟨'*' :: w1, ?_, ?_⟩
        · simp [cwExact, hw1, Except.map]
        · intro p hp hpu
          have hzip : (('!' : Char) :: hs).zip (g0 :: gs) = ('!', g0) :: hs.zip gs := rfl
          rw [hzip] at hp
          rcases List.mem_cons.mp hp with hh | hh
          · rw [hh] at hpu; simp at hpu
          · exact List.mem_cons_of_mem _ (hprop p hh hpu)
      · subst hc
        refine ⟨g0 :: w1, ?_, ?_⟩
        · simp [cwExact, hw1, Except.map]
        · intro p hp hpu
          have hzip : (('_' : Char) :: hs).zip (g0 :: gs) = ('_', g0) :: hs.zip gs := rfl
          rw [hzip] at hp
          rcases List.mem_cons.mp hp with hh | hh
          · rw [hh]; exact List.mem_cons_self _ _
          · exact List.mem_cons_of_mem _ (hprop p hh hpu)

theorem cwPresent_self_reject :
    ∀ (h g w : List Char), h.length ≤ g.length →
      (∀ c ∈ h, c = '!' ∨ c = '_') →
      (∃ p ∈ h.zip g, p.1 = '_' ∧ p.2 ∈ w) →
      cwPresent h g w = .ok none := by
  intro h
  induction h with
  | nil => intro g w _ _ hex; simp at hex
  | cons c hs ih =>
    intro g w hlen halpha hex
    cases g with
    | nil => simp at hlen
    | cons g0 gs =>
      have hzip : (c :: hs).zip (g0 :: gs) = (c, g0) :: hs.zip gs := rfl
      rcases halpha c (List.mem_cons_self c hs) with hc | hc
      · subst hc
        have hex' : ∃ p ∈ hs.zip gs, p.1 = '_' ∧ p.2 ∈ w := by
          obtain ⟨p, hp, hpu, hpw⟩ := hex
          rw [hzip] at hp
          rcases List.mem_cons.mp hp with hh | hh
          · rw [hh] at hpu; simp at hpu
          · exact ⟨p, hh, hpu, hpw⟩
        simp [cwPresent, ih gs w (by simpa using hlen)
          (fun x hx => halpha x (List.mem_cons_of_mem _ hx)) hex']
      · subst hc
        by_cases hmw : g0 ∈ w
        · simp [cwPresent, hmw]
        · have hex' : ∃ p ∈ hs.zip gs, p.1 = '_' ∧ p.2 ∈ w := by
            obtain ⟨p, hp, hpu, hpw⟩ := hex
            rw [hzip] at hp
            rcases List.mem_cons.mp hp with hh | hh
            · rw [hh] at hpw; exact absurd hpw hmw
            · exact ⟨p, hh, hpu, hpw⟩
          simp [cwPresent, hmw, ih gs w (by simpa using hlen)
            (fun x hx => halpha x (List.mem_cons_of_mem _ hx)) hex']

/-! ### Totality of the filter on well-formed inputs -/

theorem cwExact_total :
    ∀ (h g w : List Char), h.length ≤ g.length → h.length ≤ w.length →
      (∀ c ∈ h, c = '!' ∨ c = '?' ∨ c = '_') →
      ∃ r, cwExact h g w = .ok r := by
  intro h
  induction h with
  | nil => intro g w _ _ _; exact ⟨some w, rfl⟩
  | cons c hs ih =>
    intro g w hlg hlw halpha
    cases g with
    | nil => simp at hlg
    | cons g0 gs =>
      cases w with
      | nil => simp at hlw
      | cons w0 ws =>
        obtain ⟨r, hr⟩ := ih gs ws (by simpa using hlg) (by simpa using hlw)
          (fun x hx => halpha x (List.mem_cons_of_mem _ hx))
        rcases halpha c (List.mem_cons_self c hs) with hc | hc | hc <;> subst hc
        · by_cases hgw : g0 = w0
          · exact ⟨Option.map (fun v => '*' :: v) r, by simp [cwExact, hgw, hr, Except.map]⟩
          · exact ⟨none, by simp [cwExact, hgw]⟩
        · by_cases hgw : g0 = w0
          · exact ⟨none, by simp [cwExact, hgw]⟩
          · exact ⟨Option.map (fun v => w0 :: v) r, by simp [cwExact, hgw, hr, Except.map]⟩
        · exact ⟨Option.map (fun v => w0 :: v) r, by simp [cwExact, hr, Except.map]⟩

theorem cwPresent_total :
    ∀ (h g w : List Char), h.length ≤ g.length →
      ∃ r, cwPresent h g w = .ok r := by
  intro h
  induction h with
  | nil => intro g w _; exact ⟨some w, rfl⟩
  | cons c hs ih =>
    intro g w hlg
    cases g with
    | nil => simp at hlg
    | cons g0 gs =>
      by_cases hq : c = '?'
      · subst hq
        by_cases hmw : g0 ∈ w
        · obtain ⟨r, hr⟩ := ih gs (replaceFirst g0 '*' w) (by simpa using hlg)
          exact ⟨r, by simp [cwPresent, hmw, hr]⟩
        · exact ⟨none, by simp [cwPresent, hmw]⟩
      · by_cases hu : c = '_'
        · subst hu
          by_cases hmw : g0 ∈ w
          · exact ⟨none, by simp [cwPresent, hmw]⟩
          · obtain ⟨r, hr⟩ := ih gs w (by simpa using hlg)
            exact ⟨r, by simp [cwPresent, hmw, hr]⟩
        · obtain ⟨r, hr⟩ := ih gs w (by simpa using hlg)
          exact ⟨r, by simp [cwPresent, hq, hu, hr]⟩

theorem check_word_total :
    ∀ (w g h : List Char), h.length ≤ g.length → h.length ≤ w.length →
      (∀ c ∈ h, c = '!' ∨ c = '?' ∨ c = '_') →
      ∃ b, check_word_vs_guess_and_hints w g h = .ok b := by
  intro w g h hlg hlw halpha
  rw [check_word_eq_struct w g h hlg hlw]
  obtain ⟨r, hr⟩ := cwExact_total h g w hlg hlw halpha
  cases r with
  | none => exact ⟨false, by simp [hr]⟩
  | some w1 =>
    obtain ⟨r2, hr2⟩ := cwPresent_total h g w1 hlg
    cases r2 with
    | none => exact ⟨false, by simp [hr, hr2]⟩
    | some w2 => exact ⟨true, by simp [hr, hr2]⟩

/-! ### `reduce_list` computes a filter -/

theorem reduce_list_eq_filter :
    ∀ (l : List (List Char)) (g h : List Char) (res : List (List Char)),
      reduce_list l g h = .ok res → res = l.filter (passesCheck g h) := by
  intro l
  induction l with
  | nil =>
    intro g h res hres
    unfold reduce_list at hres
    injection hres with h1
    rw [← h1]
    rfl
  | cons w rest ih =>
    intro g h res hres
    unfold reduce_list at hres
    cases hcw : check_word_vs_guess_and_hints w g h with
    | error e => rw [hcw] at hres; simp at hres
    | ok b =>
      rw [hcw] at hres
      cases b with
      | true =>
        cases hrec : reduce_list rest g h with
        | error e => rw [hrec] at hres; simp [Except.map] at hres
        | ok res' =>
          rw [hrec] at hres
          simp only [Except.map] at hres
          injection hres with h1
          rw [← h1]
          have hres' := ih g h res' hrec
          simp [List.filter_cons, passesCheck, hcw, hres']
      | false =>
        have hres' := ih g h res hres
        simp [List.filter_cons, passesCheck, hcw, hres']

theorem reduce_list_ok_of_total :
    ∀ (l : List (List Char)) (g h : List Char),
      (∀ w ∈ l, ∃ b, check_word_vs_guess_and_hints w g h = .ok b) →
      reduce_list l g h = .ok (l.filter (passesCheck g h)) := by
  intro l
  induction l with
  | nil => intro g h _; rfl
  | cons w rest ih =>
    intro g h htot
    obtain ⟨b, hb⟩ := htot w (List.mem_cons_self w rest)
    have hrec := ih g h (fun x hx => htot x (List.mem_cons_of_mem _ hx))
    unfold reduce_list
    rw [hb]
    cases b with
    | true => simp [hrec, Except.map, List.filter_cons, passesCheck, hb]
    | false => simp [hrec, List.filter_cons, passesCheck, hb]

theorem passesCheck_true_iff (g h w : List Char) :
    passesCheck g h w = true ↔ check_word_vs_guess_and_hints w g h = .ok true := by
  unfold passesCheck
  cases hcw : check_word_vs_guess_and_hints w g h with
  | error e => simp
  | ok b => cases b <;> simp

/-! ### Characterization of `match_check` on equal-length words -/

theorem match_check_self (g : List Char) :
    match_check g g = .ok (true, List.replicate g.length '!') := by
  have hall : (List.replicate g.length '!').all (fun l => l == '!') = true := by
    simp [List.all_eq_true, List.mem_replicate]
  rw [match_check_eq_struct, mcExact_eq_zipWith g g (le_refl _)]
  simp only [zipWith_exactMark_self]
  simp only [if_pos hall]

theorem match_check_ne (g t : List Char) (hup : UpperWord g)
    (hlen : g.length = t.length) (hne : g ≠ t) :
    match_check g t =
      .ok (false, (mcPresent (List.zipWith exactMark g t)
        (List.zipWith exactWipe g t)).1) := by
  have hall : ¬((List.zipWith exactMark g t).all (fun l => l == '!') = true) :=
    fun hh => hne ((all_bang_iff_eq g t hup hlen).mp hh)
  rw [match_check_eq_struct, mcExact_eq_zipWith g t (le_of_eq hlen)]
  simp [hall, hlen, List.drop_length]

theorem match_check_error_of_short (g t : List Char) (hlt : t.length < g.length) :
    match_check g t = .error .indexError := by
  rw [match_check_eq_struct, mcExact_error g t hlt]

theorem match_check_ok_of_le (g t : List Char) (hle : g.length ≤ t.length) :
    ∃ r, match_check g t = .ok r := by
  rw [match_check_eq_struct, mcExact_eq_zipWith g t hle]
  by_cases hall : (List.zipWith exactMark g t).all (fun l => l == '!') = true
  · exact ⟨(true, List.zipWith exactMark g t), by simp only [if_pos hall]⟩
  · exact ⟨(false, (mcPresent (List.zipWith exactMark g t)
      (List.zipWith exactWipe g t ++ List.drop g.length t)).1),
      by simp only [if_neg hall]⟩

/-! ### Shape facts about the produced hint -/

theorem bang_not_mem_exactWipe (g t : List Char) (hupt : UpperWord t) :
    '!' ∉ List.zipWith exactWipe g t := by
  intro hmem
  obtain ⟨a, _, b, hb, heq⟩ := mem_zipWith_ex exactWipe g t '!' hmem
  by_cases hab : a = b
  · rw [exactWipe, if_pos hab] at heq
    exact absurd heq (by decide)
  · rw [exactWipe, if_neg hab] at heq
    exact (upper_not_sentinel b (hupt b hb)).1 heq.symm

theorem exactMark_mem_not_sentinel (g t : List Char) (hupg : UpperWord g) :
    ∀ a ∈ List.zipWith exactMark g t, a ≠ '_' ∧ a ≠ '*' := by
  intro a hmem
  obtain ⟨x, hx, y, _, heq⟩ := mem_zipWith_ex exactMark g t a hmem
  by_cases hxy : x = y
  · rw [exactMark, if_pos hxy] at heq
    subst heq
    exact ⟨by decide, by decide⟩
  · rw [exactMark, if_neg hxy] at heq
    have hs := upper_not_sentinel x (hupg x hx)
    rw [heq]
    exact ⟨hs.2.2.1, hs.2.2.2⟩

theorem mc_hint_hintRel (g t : List Char) (hupg : UpperWord g) (hupt : UpperWord t)
    (hlen : g.length = t.length) :
    HintRel g t (mcPresent (List.zipWith exactMark g t)
      (List.zipWith exactWipe g t)).1 :=
  hintRel_of_mcPresent g t _ hlen hupg (bang_not_mem_exactWipe g t hupt)

/-! ### Core soundness: the target survives its own hint -/

theorem check_word_self_replicate (t : List Char) :
    check_word_vs_guess_and_hints t t (List.replicate t.length '!') = .ok true := by
  rw [check_word_eq_struct t t (List.replicate t.length '!') (by simp) (by simp),
    cwExact_replicate_bang]
  have hpres := cwPresent_all_bang (List.replicate t.length '!') t
    (List.replicate t.length '*')
    (fun c hc => (List.mem_replicate.mp hc).2) (by simp)
  simp [hpres]

theorem mc_hint_sound (g t : List Char) (b : Bool) (h : List Char)
    (hupg : UpperWord g) (hupt : UpperWord t) (hlen : g.length = t.length)
    (hmc : match_check g t = .ok (b, h)) :
    check_word_vs_guess_and_hints t g h = .ok true := by
  by_cases hgt : g = t
  · subst hgt
    rw [match_check_self g] at hmc
    injection hmc with h1
    injection h1 with hb hh
    rw [← hh]
    exact check_word_self_replicate g
  · rw [match_check_ne g t hupg hlen hgt] at hmc
    injection hmc with h1
    injection h1 with hb hh
    rw [← hh]
    set g1 := List.zipWith exactMark g t with hg1
    set c1 := List.zipWith exactWipe g t with hc1
    have hrel := mc_hint_hintRel g t hupg hupt hlen
    have hlh : (mcPresent g1 c1).1.length = g.length := by
      rw [mcPresent_length]
      simp [hg1, List.length_zipWith, hlen]
    have hstar := cwExact_of_hintRel g t (mcPresent g1 c1).1 hrel
    have hsim := cwPresent_sim g1 g (forall2_exactMark g t hlen)
      c1 (List.zipWith starWipe g t)
      (exactMark_mem_not_sentinel g t hupg)
      (bang_not_mem_exactWipe g t hupt)
      (fun x hx1 hx2 => count_wipe_star g t x hx1 hx2)
    obtain ⟨w', hw'⟩ := hsim
    rw [check_word_eq_struct t g (mcPresent g1 c1).1
      (le_of_eq hlh) (le_of_eq (hlh.trans hlen))]
    simp [hstar, hw']

/-! ### Core self-rejection: the guess itself fails its own non-winning hint -/

theorem mc_hint_self_false (g t : List Char) (h : List Char)
    (hupg : UpperWord g) (hupt : UpperWord t) (hlen : g.length = t.length)
    (hne : g ≠ t) (hmc : match_check g t = .ok (false, h)) :
    check_word_vs_guess_and_hints g g h = .ok false := by
  rw [match_check_ne g t hupg hlen hne] at hmc
  injection hmc with h1
  injection h1 with hb hh
  rw [← hh]
  set hp := (mcPresent (List.zipWith exactMark g t)
    (List.zipWith exactWipe g t)).1 with hhp
  have hrel := mc_hint_hintRel g t hupg hupt hlen
  have hlh : hp.length = g.length := by
    rw [hhp, mcPresent_length]
    simp [List.length_zipWith, hlen]
  have halpha : ∀ c ∈ hp, c = '!' ∨ c = '?' ∨ c = '_' :=
    hintRel_alphabet g t hp hrel
  obtain ⟨p0, hp0, hp0ne⟩ := hintRel_pair_ne g t hp hrel hne
  by_cases hq : '?' ∈ hp
  · have hexact := cwExact_self_q hp g (le_of_eq hlh) halpha hq
    rw [check_word_eq_struct g g hp (le_of_eq hlh) (le_of_eq hlh)]
    simp [hexact]
  · have halpha' : ∀ c ∈ hp, c = '!' ∨ c = '_' := by
      intro c hc
      rcases halpha c hc with h1 | h1 | h1
      · exact Or.inl h1
      · exact absurd (h1 ▸ hc) hq
      · exact Or.inr h1
    obtain ⟨w1, hw1, hprop⟩ := cwExact_self_noq hp g (le_of_eq hlh) halpha'
    have hp0u : p0.1 = '_' := by
      rcases halpha' p0.1 (List.of_mem_zip hp0).1 with h1 | h1
      · exact absurd h1 hp0ne
      · exact h1
    have hp0w : p0.2 ∈ w1 := hprop p0 hp0 hp0u
    have hreject := cwPresent_self_reject hp g w1 (le_of_eq hlh) halpha'
      ⟨p0, hp0, hp0u, hp0w⟩
    rw [check_word_eq_struct g g hp (le_of_eq hlh) (le_of_eq hlh)]
    simp [hw1, hreject]

/-! ### Lenient dictionary loading -/

theorem surviving_words_skip (cc l : List Char) (ls : List (List Char))
    (hskip : cc.isPrefixOf l = true ∨ pyStrip l = []) :
    surviving_words cc (l :: ls) = surviving_words cc ls := by
  unfold surviving_words
  rcases hskip with hh | hh
  · simp [List.filter_cons, hh]
  · simp [List.filter_cons, hh]

theorem read_file_skip (cc l : List Char) (ls : List (List Char))
    (hskip : cc.isPrefixOf l = true ∨ pyStrip l = []) :
    read_file_as_words_list (l :: ls) true cc = read_file_as_words_list ls true cc := by
  unfold read_file_as_words_list
  rw [surviving_words_skip cc l ls hskip]
  simp

theorem read_file_empty (cc : List Char) (lines : List (List Char))
    (hempty : surviving_words cc lines = []) :
    read_file_as_words_list lines true cc = .error .emptyDictionary := by
  simp [read_file_as_words_list, hempty]

theorem read_file_wrong_length (cc : List Char) (lines : List (List Char))
    (w0 : List Char) (ws : List (List Char))
    (hsurv : surviving_words cc lines = w0 :: ws)
    (hbad : ∃ w ∈ ws, w.length ≠ w0.length) :
    ∃ w, read_file_as_words_list lines true cc =
        .error (.wrongWordLength w w.length w0.length) ∧
      w ∈ w0 :: ws ∧ w.length ≠ w0.length := by
  obtain ⟨wb, hwb, hwbne⟩ := hbad
  have hsome : ((w0 :: ws).find? (fun w => w.length != w0.length)).isSome := by
    rw [List.find?_isSome]
    exact ⟨wb, List.mem_cons_of_mem _ hwb, by simpa using hwbne⟩
  obtain ⟨w, hw⟩ := Option.isSome_iff_exists.mp hsome
  have hpred := List.find?_some hw
  have hmem : w ∈ w0 :: ws := List.mem_of_find?_eq_some hw
  refine ⟨w, ?_, hmem, by simpa using hpred⟩
  simp [read_file_as_words_list, hsurv, hw]

theorem surviving_words_keep (cc l : List Char) (ls : List (List Char))
    (hnc : ¬ cc.isPrefixOf l = true) (hne : pyStrip l ≠ []) :
    surviving_words cc (l :: ls) =
      upperStr (pyStrip l) :: surviving_words cc ls := by
  unfold surviving_words
  have hempty : (pyStrip l).isEmpty = false := by
    cases hst : pyStrip l with
    | nil => exact absurd hst hne
    | cons a as => rfl
  have h1 : (!(cc.isPrefixOf l) && !(pyStrip l).isEmpty) = true := by
    simp [hnc, hempty]
  simp [List.filter_cons, h1]

/-! ### One auto-solver turn and the solver's global safety -/

theorem mc_hint_shape (g t : List Char) (b : Bool) (h : List Char)
    (hupg : UpperWord g) (hupt : UpperWord t) (hlen : g.length = t.length)
    (hmc : match_check g t = .ok (b, h)) :
    h.length = g.length ∧ (∀ c ∈ h, c = '!' ∨ c = '?' ∨ c = '_') := by
  by_cases hgt : g = t
  · subst hgt
    rw [match_check_self g] at hmc
    injection hmc with h1
    injection h1 with hb hh
    subst hh
    exact ⟨by simp, fun c hc => Or.inl (List.mem_replicate.mp hc).2⟩
  · rw [match_check_ne g t hupg hlen hgt] at hmc
    injection hmc with h1
    injection h1 with hb hh
    subst hh
    have hrel := mc_hint_hintRel g t hupg hupt hlen
    have hl := hintRel_length g t _ hrel
    exact ⟨by rw [← hl.2, ← hl.1], hintRel_alphabet g t _ hrel⟩

theorem mc_state_false_of_ne (g t : List Char) (b : Bool) (h : List Char)
    (hupg : UpperWord g) (hlen : g.length = t.length) (hne : g ≠ t)
    (hmc : match_check g t = .ok (b, h)) : b = false := by
  rw [match_check_ne g t hupg hlen hne] at hmc
  injection hmc with h1
  injection h1 with hb hh
  exact hb.symm

theorem autoStep_self (words : List (List Char)) (correct : List Char) :
    autoStep words correct correct = .ok none := by
  simp [autoStep, match_check_self]

theorem autoStep_progress (L : Nat) (words : List (List Char))
    (correct guess : List Char)
    (hw : ∀ w ∈ words, UpperWord w ∧ w.length = L)
    (hc : correct ∈ words) (hg : guess ∈ words) (hne : guess ≠ correct) :
    ∃ words', autoStep words correct guess = .ok (some words') ∧
      correct ∈ words' ∧ guess ∉ words' ∧ words'.length < words.length ∧
      ∀ w ∈ words', UpperWord w ∧ w.length = L := by
  have hug := (hw guess hg).1
  have huc := (hw correct hc).1
  have hlg : guess.length = L := (hw guess hg).2
  have hlc : correct.length = L := (hw correct hc).2
  have hlen : guess.length = correct.length := by rw [hlg, hlc]
  obtain ⟨r, hr⟩ := match_check_ok_of_le guess correct (le_of_eq hlen)
  obtain ⟨b, h⟩ := r
  have hb : b = false := mc_state_false_of_ne guess correct b h hug hlen hne hr
  subst hb
  have hshape := mc_hint_shape guess correct false h hug huc hlen hr
  have htot : ∀ w ∈ words, ∃ bb, check_word_vs_guess_and_hints w guess h = .ok bb := by
    intro w hwmem
    refine check_word_total w guess h (le_of_eq hshape.1) ?_ hshape.2
    rw [hshape.1, hlg, (hw w hwmem).2]
  have hred := reduce_list_ok_of_total words guess h htot
  set res := words.filter (passesCheck guess h) with hres
  have hcorrect_in : correct ∈ res := by
    rw [hres, List.mem_filter]
    exact ⟨hc, (passesCheck_true_iff guess h correct).mpr
      (mc_hint_sound guess correct false h hug huc hlen hr)⟩
  have hguess_notin : guess ∉ res := by
    rw [hres, List.mem_filter]
    intro hcontra
    have htrue := (passesCheck_true_iff guess h guess).mp hcontra.2
    have hfalse := mc_hint_self_false guess correct h hug huc hlen hne hr
    rw [htrue] at hfalse
    injection hfalse with hbf
    exact Bool.noConfusion hbf
  have hlt : res.length < words.length := by
    rw [hres, List.length_filter_lt_length_iff_exists]
    refine ⟨guess, hg, ?_⟩
    intro hp
    exact hguess_notin (by rw [hres]; exact List.mem_filter.mpr ⟨hg, hp⟩)
  have hne_nil : res ≠ [] := by
    intro hnil
    rw [hnil] at hcorrect_in
    simp at hcorrect_in
  refine ⟨res, ?_, hcorrect_in, hguess_notin, hlt, ?_⟩
  · unfold autoStep
    rw [hr]
    simp [hred, hne_nil]
  · intro w hwmem
    rw [hres] at hwmem
    exact hw w (List.mem_filter.mp hwmem).1

theorem solver_safe_aux (L : Nat) (correct : List Char) :
    ∀ (n : Nat) (words : List (List Char)), words.length ≤ n →
      (∀ w ∈ words, UpperWord w ∧ w.length = L) → correct ∈ words →
      SafeWithin correct n words := by
  intro n
  induction n with
  | zero =>
    intro words hlen hw hc
    have hpos : 0 < words.length := List.length_pos.mpr (List.ne_nil_of_mem hc)
    have hfalse : False := by omega
    exact hfalse.elim
  | succ m ih =>
    intro words hlen hw hc
    intro guess hg
    by_cases hgc : guess = correct
    · subst hgc
      exact Or.inl (autoStep_self words guess)
    · right
      obtain ⟨words', hstep, hcin, hgout, hlt, hw'⟩ :=
        autoStep_progress L words correct guess hw hc hg hgc
      exact ⟨words', hstep, ih words' (by omega) hw' hcin⟩

/-! ### Behaviour of the filter's first pass on malformed hints -/

theorem cwExact_invalid :
    ∀ (h g w : List Char), h.length ≤ g.length → h.length ≤ w.length →
      (∃ c ∈ h, ¬(c = '!' ∨ c = '?' ∨ c = '_')) →
      cwExact h g w = .ok none ∨
      ∃ c, ¬(c = '!' ∨ c = '?' ∨ c = '_') ∧
        cwExact h g w = .error (.invalidHint c) := by
  intro h
  induction h with
  | nil => intro g w _ _ hex; simp at hex
  | cons c0 hs ih =>
    intro g w hlg hlw hex
    cases g with
    | nil => simp at hlg
    | cons g0 gs =>
      cases w with
      | nil => simp at hlw
      | cons w0 ws =>
        by_cases hval : c0 = '!' ∨ c0 = '?' ∨ c0 = '_'
        · have hex' : ∃ c ∈ hs, ¬(c = '!' ∨ c = '?' ∨ c = '_') := by
            obtain ⟨c, hc, hcbad⟩ := hex
            rcases List.mem_cons.mp hc with hh | hh
            · exact absurd (hh ▸ hval) hcbad
            · exact ⟨c, hh, hcbad⟩
          have hrec := ih gs ws (by simpa using hlg) (by simpa using hlw) hex'
          rcases hval with hv | hv | hv <;> subst hv
          · by_cases hgw : g0 = w0
            · rcases hrec with hnone | ⟨c, hcbad, herr⟩
              · exact Or.inl (by simp [cwExact, hgw, hnone, Except.map])
              · exact Or.inr ⟨c, hcbad, by simp [cwExact, hgw, herr, Except.map]⟩
            · exact Or.inl (by simp [cwExact, hgw])
          · by_cases hgw : g0 = w0
            · exact Or.inl (by simp [cwExact, hgw])
            · rcases hrec with hnone | ⟨c, hcbad, herr⟩
              · exact Or.inl (by simp [cwExact, hgw, hnone, Except.map])
              · exact Or.inr ⟨c, hcbad, by simp [cwExact, hgw, herr, Except.map]⟩
          · rcases hrec with hnone | ⟨c, hcbad, herr⟩
            · exact Or.inl (by simp [cwExact, hnone, Except.map])
            · exact Or.inr ⟨c, hcbad, by simp [cwExact, herr, Except.map]⟩
        · exact Or.inr ⟨c0, hval, by simp [cwExact, hval]⟩

/-! ## The claims -/

/-- C1: Soundness of the filter with respect to the engine.  For every pair
of equal-length uppercase words, if `match_check guess target` returns a
hint, then `check_word_vs_guess_and_hints target guess hint` returns
`True`: the target always survives its own feedback. -/
theorem c1_target_survives_own_hint (guess target : List Char) (b : Bool)
    (hint : List Char) (hupg : UpperWord guess) (hupt : UpperWord target)
    (hlen : guess.length = target.length)
    (hmc : match_check guess target = .ok (b, hint)) :
    check_word_vs_guess_and_hints target guess hint = .ok true :=
  mc_hint_sound guess target b hint hupg hupt hlen hmc

/-- C1 witness at guess `"AB"`, target `"BA"` (hint `"??"`). -/
theorem c1_witness :
    UpperWord ['A', 'B'] ∧ UpperWord ['B', 'A'] ∧
    match_check ['A', 'B'] ['B', 'A'] = .ok (false, ['?', '?']) ∧
    check_word_vs_guess_and_hints ['B', 'A'] ['A', 'B'] ['?', '?'] = .ok true :=
  ⟨by decide, by decide, rfl,
    c1_target_survives_own_hint ['A', 'B'] ['B', 'A'] false ['?', '?']
      (by decide) (by decide) rfl rfl⟩

/-- C2: Auto-solver progress and termination.  For a dictionary of
equal-length uppercase words containing the target, every possible run of
`game_routine`'s auto-solver loop wins within at most `|words|` guesses and
never raises any exception (in particular never `exhaustedCandidates`);
moreover each non-winning guess yields a strictly smaller candidate list
that still contains the target and no longer contains the guess. -/
theorem c2_auto_solver_terminates (L : Nat) (words : List (List Char))
    (correct : List Char)
    (hw : ∀ w ∈ words, UpperWord w ∧ w.length = L)
    (hc : correct ∈ words) :
    SafeWithin correct words.length words ∧
    ∀ guess ∈ words, guess ≠ correct →
      ∃ words', autoStep words correct guess = .ok (some words') ∧
        correct ∈ words' ∧ guess ∉ words' ∧ words'.length < words.length :=
  ⟨solver_safe_aux L correct words.length words (le_refl _) hw hc,
    fun guess hg hne =>
      let ⟨words', h1, h2, h3, h4, _⟩ :=
        autoStep_progress L words correct guess hw hc hg hne
      ⟨words', h1, h2, h3, h4⟩⟩

/-- C2 witness on the dictionary `["AB", "CD"]` with target `"AB"`. -/
theorem c2_witness :
    (∀ w ∈ [['A', 'B'], ['C', 'D']], UpperWord w ∧ w.length = 2) ∧
    (['A', 'B'] : List Char) ∈ [['A', 'B'], ['C', 'D']] ∧
    SafeWithin ['A', 'B'] 2 [['A', 'B'], ['C', 'D']] :=
  ⟨by decide, by decide,
    (c2_auto_solver_terminates 2 [['A', 'B'], ['C', 'D']] ['A', 'B']
      (by decide) (by decide)).1⟩

/-- C3: Duplicate-letter accounting of the feedback engine.  The hint has
the guess's length, carries `'!'` exactly at the agreeing positions, and
for every letter the number of `'!'`/`'?'`-marked positions carrying that
guess letter never exceeds its number of occurrences in the target. -/
theorem c3_hint_accounting (guess target : List Char) (b : Bool)
    (hint : List Char) (hupg : UpperWord guess) (hupt : UpperWord target)
    (hlen : guess.length = target.length)
    (hmc : match_check guess target = .ok (b, hint)) :
    hint.length = guess.length ∧
    (∀ i : Nat, i < guess.length →
      (hint.getD i ' ' = '!' ↔ guess.getD i ' ' = target.getD i ' ')) ∧
    (∀ x : Char, claimedCount x guess hint ≤ countc x target) := by
  by_cases hgt : guess = target
  · subst hgt
    rw [match_check_self guess] at hmc
    injection hmc with h1
    injection h1 with hb hh
    subst hh
    refine ⟨by simp, ?_, ?_⟩
    · intro i hi
      exact iff_of_true (getD_replicate_bang guess.length i ' ' hi) rfl
    · intro x
      rw [claimedCount_replicate_bang]
  · rw [match_check_ne guess target hupg hlen hgt] at hmc
    injection hmc with h1
    injection h1 with hb hh
    subst hh
    have hrel := mc_hint_hintRel guess target hupg hupt hlen
    have hl := hintRel_length guess target _ hrel
    refine ⟨by rw [← hl.2, ← hl.1],
      fun i hi => hintRel_getD guess target _ hrel i ' ' hi, ?_⟩
    intro x
    by_cases hxg : x ∈ guess
    · have hx_ : x ≠ '_' := (upper_not_sentinel x (hupg x hxg)).2.2.1
      have hclaim := hintRel_claimed guess target _ x hrel
      have hq := hintRel_qCount guess target _ x hrel
      have hm3 := mcPresent_count (List.zipWith exactMark guess target)
        (List.zipWith exactWipe guess target) x hx_
      have hct := count_exactWipe guess target x hlen hx_
      rw [hclaim, hq]
      omega
    · have habs : ∀ a ∈ guess, a ≠ x := fun a ha hax => hxg (hax ▸ ha)
      rw [claimedCount_zero_of_absent guess _ x habs]
      exact Nat.zero_le _

/-- C3 witness at guess `"ABA"`, target `"AAB"`. -/
theorem c3_witness :
    UpperWord ['A', 'B', 'A'] ∧ UpperWord ['A', 'A', 'B'] ∧
    match_check ['A', 'B', 'A'] ['A', 'A', 'B'] = .ok (false, ['!', '?', '?']) ∧
    ((['!', '?', '?'] : List Char).length = 3 ∧
      (∀ i : Nat, i < (['A', 'B', 'A'] : List Char).length →
        ((['!', '?', '?'] : List Char).getD i ' ' = '!' ↔
          (['A', 'B', 'A'] : List Char).getD i ' ' =
            (['A', 'A', 'B'] : List Char).getD i ' ')) ∧
      ∀ x : Char, claimedCount x ['A', 'B', 'A'] ['!', '?', '?'] ≤
        countc x ['A', 'A', 'B']) :=
  ⟨by decide, by decide, rfl,
    c3_hint_accounting ['A', 'B', 'A'] ['A', 'A', 'B'] false ['!', '?', '?']
      (by decide) (by decide) rfl rfl⟩

/-- C4: `reduce_list` returns exactly the order-preserving sub-sequence of
its input consisting of the words accepted by
`check_word_vs_guess_and_hints`, never adding elements (the input itself,
a value, is not mutated — the result is a fresh filtered list). -/
theorem c4_reduce_list_is_filter (in_list : List (List Char))
    (guess hints : List Char) (res : List (List Char))
    (hres : reduce_list in_list guess hints = .ok res) :
    res = in_list.filter (passesCheck guess hints) ∧
    res.Sublist in_list ∧
    (∀ w, w ∈ res ↔ w ∈ in_list ∧
      check_word_vs_guess_and_hints w guess hints = .ok true) := by
  have hfil := reduce_list_eq_filter in_list guess hints res hres
  refine ⟨hfil, ?_, ?_⟩
  · rw [hfil]
    exact List.filter_sublist in_list
  · intro w
    rw [hfil, List.mem_filter, passesCheck_true_iff]

/-- C4 witness on the list `["AB", "CB"]` with guess `"AB"`, hint `"!!"`. -/
theorem c4_witness :
    reduce_list [['A', 'B'], ['C', 'B']] ['A', 'B'] ['!', '!'] = .ok [['A', 'B']] ∧
    (([['A', 'B']] : List (List Char)) =
        [['A', 'B'], ['C', 'B']].filter (passesCheck ['A', 'B'] ['!', '!']) ∧
      List.Sublist [['A', 'B']] [['A', 'B'], ['C', 'B']] ∧
      (∀ w, w ∈ [['A', 'B']] ↔ w ∈ [['A', 'B'], ['C', 'B']] ∧
        check_word_vs_guess_and_hints w ['A', 'B'] ['!', '!'] = .ok true)) :=
  ⟨rfl, c4_reduce_list_is_filter [['A', 'B'], ['C', 'B']] ['A', 'B'] ['!', '!']
    [['A', 'B']] rfl⟩

/-- C5 counterexample: the claim asserts
`match_check("CRANE", "TRACE") = (False, "_!!__")`, but the engine returns
the hint `"?!!_!"` (the final `E` is an exact match and the leading `C`
occurs in the target), so the claimed equality is false. -/
theorem c5_counterexample :
    ¬ (match_check ['C', 'R', 'A', 'N', 'E'] ['T', 'R', 'A', 'C', 'E'] =
      .ok (false, ['_', '!', '!', '_', '_'])) := by
  intro hcontra
  have hgood : match_check ['C', 'R', 'A', 'N', 'E'] ['T', 'R', 'A', 'C', 'E'] =
      .ok (false, ['?', '!', '!', '_', '!']) := rfl
  rw [hgood] at hcontra
  injection hcontra with h1
  injection h1 with hb hh
  exact absurd hh (by decide)

/-- C5 (amended): `match_check("CRANE", "TRACE")` returns a non-full-match
result whose hint string is `"?!!_!"`. -/
theorem c5_amended_crane_trace :
    match_check ['C', 'R', 'A', 'N', 'E'] ['T', 'R', 'A', 'C', 'E'] =
      .ok (false, ['?', '!', '!', '_', '!']) := rfl

/-- C6 counterexample: the hint `"!x"` contains the invalid character
`'x'`, yet `check_word_vs_guess_and_hints("AB", "CB", "!x")` returns
`False` instead of raising `InvalidHint` — the `'!'` mismatch at position 0
rejects the candidate before the invalid character is scanned. -/
theorem c6_counterexample :
    ¬(('x' : Char) = '!' ∨ ('x' : Char) = '?' ∨ ('x' : Char) = '_') ∧
    ('x' : Char) ∈ (['!', 'x'] : List Char) ∧
    check_word_vs_guess_and_hints ['A', 'B'] ['C', 'B'] ['!', 'x'] = .ok false :=
  ⟨by decide, by decide, rfl⟩

/-- C6 (amended): on equal-length inputs whose hint contains a character
outside `{'!', '?', '_'}`, the filter never returns `True`: it either
returns `False` (when an earlier position of the first pass already rejects
the candidate) or raises the `InvalidHint` `ValueError` naming an offending
character. -/
theorem c6_invalid_hint (word guess hints : List Char)
    (hlg : hints.length = guess.length) (hlw : hints.length = word.length)
    (hbad : ∃ c ∈ hints, ¬(c = '!' ∨ c = '?' ∨ c = '_')) :
    check_word_vs_guess_and_hints word guess hints = .ok false ∨
    ∃ c, ¬(c = '!' ∨ c = '?' ∨ c = '_') ∧
      check_word_vs_guess_and_hints word guess hints = .error (.invalidHint c) := by
  rw [check_word_eq_struct word guess hints (le_of_eq hlg) (le_of_eq hlw)]
  rcases cwExact_invalid hints guess word (le_of_eq hlg) (le_of_eq hlw) hbad with
    hnone | ⟨c, hcbad, herr⟩
  · exact Or.inl (by simp [hnone])
  · exact Or.inr ⟨c, hcbad, by simp [herr]⟩

/-- C6 witness at candidate `"AB"`, guess `"CB"`, hint `"!x"`. -/
theorem c6_witness :
    ((['!', 'x'] : List Char).length = (['C', 'B'] : List Char).length ∧
      (['!', 'x'] : List Char).length = (['A', 'B'] : List Char).length ∧
      (∃ c ∈ (['!', 'x'] : List Char), ¬(c = '!' ∨ c = '?' ∨ c = '_'))) ∧
    (check_word_vs_guess_and_hints ['A', 'B'] ['C', 'B'] ['!', 'x'] = .ok false ∨
      ∃ c, ¬(c = '!' ∨ c = '?' ∨ c = '_') ∧
        check_word_vs_guess_and_hints ['A', 'B'] ['C', 'B'] ['!', 'x'] =
          .error (.invalidHint c)) :=
  ⟨⟨rfl, rfl, by decide⟩,
    c6_invalid_hint ['A', 'B'] ['C', 'B'] ['!', 'x'] rfl rfl (by decide)⟩

/-- C7 counterexample: `match_check` does not fail on a length mismatch in
general — for the shorter guess `"AB"` against target `"ABC"` it returns a
full-match result `(True, "!!")` instead of raising anything. -/
theorem c7_counterexample :
    (['A', 'B'] : List Char).length ≠ (['A', 'B', 'C'] : List Char).length ∧
    match_check ['A', 'B'] ['A', 'B', 'C'] = .ok (true, ['!', '!']) :=
  ⟨by decide, rfl⟩

/-- C7 (amended): `match_check` performs no explicit length validation.
When the guess is longer than the target it fails with the `IndexError`
raised by the out-of-range read `correct[index]` (the only
"LengthMismatch"-style failure), but when the guess is no longer than the
target it returns a result computed from the first `len(guess)` positions. -/
theorem c7_no_length_check (guess target : List Char) :
    (target.length < guess.length →
      match_check guess target = .error .indexError) ∧
    (guess.length ≤ target.length → ∃ r, match_check guess target = .ok r) :=
  ⟨fun hlt => match_check_error_of_short guess target hlt,
   fun hle => match_check_ok_of_le guess target hle⟩

/-- C7 witness: guess `"AB"` vs target `"A"` raises `IndexError`; guess
`"AB"` vs target `"ABC"` returns a result. -/
theorem c7_witness :
    ((['A'] : List Char).length < (['A', 'B'] : List Char).length ∧
      match_check ['A', 'B'] ['A'] = .error .indexError) ∧
    ((['A', 'B'] : List Char).length ≤ (['A', 'B', 'C'] : List Char).length ∧
      ∃ r, match_check ['A', 'B'] ['A', 'B', 'C'] = .ok r) :=
  ⟨⟨by decide, (c7_no_length_check ['A', 'B'] ['A']).1 (by decide)⟩,
   ⟨by decide, (c7_no_length_check ['A', 'B'] ['A', 'B', 'C']).2 (by decide)⟩⟩

/-- C8: Lenient loading contract.  With `check_input` enabled the loader
skips blank lines and lines starting with the comment marker, fails with
`EmptyDictionary` when no words survive, fails with `WrongWordLength`
naming an offending word and its actual vs. expected length whenever the
surviving words do not all share the first word's length; in particular the
input with a comment line, a blank line, the word `"ABCDE"` and the
wrong-length word `"ABC"` raises `WrongWordLength` naming `"ABC"` (actual
3, expected 5). -/
theorem c8_lenient_loading (cc : List Char) :
    (∀ (l : List Char) (ls : List (List Char)),
      cc.isPrefixOf l = true ∨ pyStrip l = [] →
      read_file_as_words_list (l :: ls) true cc =
        read_file_as_words_list ls true cc) ∧
    (∀ lines : List (List Char), surviving_words cc lines = [] →
      read_file_as_words_list lines true cc = .error .emptyDictionary) ∧
    (∀ (lines : List (List Char)) (w0 : List Char) (ws : List (List Char)),
      surviving_words cc lines = w0 :: ws →
      (∃ w ∈ ws, w.length ≠ w0.length) →
      ∃ w, read_file_as_words_list lines true cc =
          .error (.wrongWordLength w w.length w0.length) ∧
        w ∈ w0 :: ws ∧ w.length ≠ w0.length) ∧
    read_file_as_words_list
      [['#', 'x'], [], ['A', 'B', 'C', 'D', 'E'], ['A', 'B', 'C']] true ['#'] =
      .error (.wrongWordLength ['A', 'B', 'C'] 3 5) :=
  ⟨fun l ls h => read_file_skip cc l ls h,
   fun lines h => read_file_empty cc lines h,
   fun lines w0 ws h1 h2 => read_file_wrong_length cc lines w0 ws h1 h2,
   rfl⟩

/-- C8 witness: the mixed-length part applied to the concrete input of the
claim's scenario. -/
theorem c8_witness :
    (surviving_words ['#'] [['#', 'x'], [], ['A', 'B'], ['C']] =
        [['A', 'B'], ['C']] ∧
      (∃ w ∈ ([[('C' : Char)]] : List (List Char)),
        w.length ≠ (['A', 'B'] : List Char).length)) ∧
    (∃ w, read_file_as_words_list [['#', 'x'], [], ['A', 'B'], ['C']] true ['#'] =
        .error (.wrongWordLength w w.length (['A', 'B'] : List Char).length) ∧
      w ∈ [['A', 'B'], ['C']] ∧ w.length ≠ (['A', 'B'] : List Char).length) :=
  ⟨⟨rfl, by decide⟩,
    (c8_lenient_loading ['#']).2.2.1 [['#', 'x'], [], ['A', 'B'], ['C']]
      ['A', 'B'] [['C']] rfl (by decide)⟩

/-- C9: A failed guess never survives its own feedback.  For distinct
equal-length uppercase words, `match_check` reports a non-win, the guess
itself fails `check_word_vs_guess_and_hints` against its own hint, and is
therefore removed from any reduced candidate list — so the auto-solver
never guesses the same word twice. -/
theorem c9_guess_removed (guess target : List Char) (b : Bool)
    (hint : List Char) (hupg : UpperWord guess) (hupt : UpperWord target)
    (hlen : guess.length = target.length) (hne : guess ≠ target)
    (hmc : match_check guess target = .ok (b, hint)) :
    b = false ∧
    check_word_vs_guess_and_hints guess guess hint = .ok false ∧
    ∀ (words res : List (List Char)),
      reduce_list words guess hint = .ok res → guess ∉ res := by
  have hb : b = false := mc_state_false_of_ne guess target b hint hupg hlen hne hmc
  subst hb
  have hfalse := mc_hint_self_false guess target hint hupg hupt hlen hne hmc
  refine ⟨rfl, hfalse, ?_⟩
  intro words res hres
  rw [reduce_list_eq_filter words guess hint res hres]
  intro hcontra
  have htrue := (passesCheck_true_iff guess hint guess).mp
    (List.mem_filter.mp hcontra).2
  rw [htrue] at hfalse
  injection hfalse with hbf
  exact Bool.noConfusion hbf

/-- C9 witness at guess `"AB"`, target `"BA"` (hint `"??"`). -/
theorem c9_witness :
    UpperWord ['A', 'B'] ∧ UpperWord ['B', 'A'] ∧
    (['A', 'B'] : List Char) ≠ ['B', 'A'] ∧
    (false = false ∧
      check_word_vs_guess_and_hints ['A', 'B'] ['A', 'B'] ['?', '?'] = .ok false ∧
      ∀ (words res : List (List Char)),
        reduce_list words ['A', 'B'] ['?', '?'] = .ok res → ['A', 'B'] ∉ res) :=
  ⟨by decide, by decide, by decide,
    c9_guess_removed ['A', 'B'] ['B', 'A'] false ['?', '?']
      (by decide) (by decide) rfl (by decide) rfl⟩

/-- C10: The lenient loader tests the comment marker against the raw,
unstripped line, so a line whose comment marker is preceded by leading
whitespace is not skipped but stripped, uppercased and kept as a word — and
it can then trigger the length-consistency failure, as the concrete input
`["HELLO", " #AB"]` shows: it fails with `WrongWordLength` naming the kept
word `"#AB"`. -/
theorem c10_comment_check_unstripped (cc l : List Char) (ls : List (List Char))
    (hnc : ¬ cc.isPrefixOf l = true) (hne : pyStrip l ≠ []) :
    surviving_words cc (l :: ls) =
      upperStr (pyStrip l) :: surviving_words cc ls ∧
    read_file_as_words_list
        [['H', 'E', 'L', 'L', 'O'], [' ', '#', 'A', 'B']] true ['#'] =
      .error (.wrongWordLength ['#', 'A', 'B'] 3 5) :=
  ⟨surviving_words_keep cc l ls hnc hne, rfl⟩

/-- C10 witness at the line `" #AB"` with marker `"#"`. -/
theorem c10_witness :
    (¬ (['#'] : List Char).isPrefixOf [' ', '#', 'A', 'B'] = true ∧
      pyStrip [' ', '#', 'A', 'B'] ≠ []) ∧
    surviving_words ['#'] [[' ', '#', 'A', 'B']] =
      [upperStr (pyStrip [' ', '#', 'A', 'B'])] := by
  refine ⟨⟨by decide, by decide⟩, ?_⟩
  have hkeep := (c10_comment_check_unstripped ['#'] [' ', '#', 'A', 'B'] []
    (by decide) (by decide)).1
  simpa using hkeep
